import Mathlib

/-!
CommandParser: a shallow embedding of `src/CommandParser.cpp`

The C++ program is a line-oriented calculator.  This file embeds its functions as
Lean definitions and proves properties of them.

Modelling conventions.

* `std::string` is a list of characters (`Str`).  Characters are compared and
  classified as in the "C" locale: `toupper` is `Char.toUpper`, `isnumber` is
  `Char.isDigit`.
* `std::map<string,string>` is an association list kept sorted by key (`StrMap`).
* `std::istringstream` is the list of unread characters together with its `eofbit`
  and `failbit` (`IStringStream`).
* Text written to `cout` is returned as a value: every function that prints returns
  the characters it printed.
* The `while (true)` loop of `parseUserInput` is a fuel-indexed recursion that
  returns `none` when the fuel runs out; `parseUserInput_total` shows it never does.
* `double` is IEEE-754 binary64 with round-to-nearest-even, a finite value being
  carried by the rational number it denotes; `int` is 32 bits wide.
* `getResult` returns `Except Abort Str`: an exception thrown by `std::stod` or an
  undefined `(int)` conversion ends it without a string.
* Standard input is the list of the lines still to be read; `main` is a fuel-indexed
  loop over it whose outcome records how the process ended, the final `retryCount`
  and the text printed (`main_total` shows the fuel never runs out).
-/

namespace CommandParser

/-- The C++ type `std::string`. -/
abbrev Str := List Char

/-! ## Constants -/

def MAX_COMMANDS : Nat := 5
def MAX_RETRIES : Nat := 3
def ADD : Str := "ADD".toList
def SUBTRACT : Str := "SUBTRACT".toList
def MULTIPLY : Str := "MULTIPLY".toList
def DIVIDE : Str := "DIVIDE".toList
def QUIT : Str := "QUIT".toList
def VALID_COMMANDS : List Str := [ADD, SUBTRACT, MULTIPLY, DIVIDE, QUIT]

def INVALID_INPUT : Str := "Invalid/Unrecognised input ".toList
def EXTRANEOUS_INPUT : Str := "Extraneous input ".toList
def RETRY_ATTEMPTS_EXHAUSTED : Str := "Retry attempts exhausted!".toList

/-- The characters written by `cout << endl`. -/
def endl : Str := ['\n']

/-! ## Character and string helpers -/

/-- The C function `toupper` in the "C" locale. -/
def toupper (c : Char) : Char := c.toUpper

/-- The BSD function `isnumber` in the "C" locale: the decimal digits. -/
def isnumber (c : Char) : Bool := c.isDigit

/-- Convert string to uppercase (`stringToUpperCase`): the loop appends
`toupper(inputString.at(i))` for `i = 0 .. length-1`. -/
def stringToUpperCase : Str → Str
  | [] => []
  | c :: rest => toupper c :: stringToUpperCase rest

/-- Check if the number is a floating point number (`isAFloatingPointNumber`):
the loop returns `true` at the first `'.'`. -/
def isAFloatingPointNumber : Str → Bool
  | [] => false
  | c :: rest => if c = '.' then true else isAFloatingPointNumber rest

/-- The function `std::to_string(int)`: decimal digits, with a leading `-` for
negative values. -/
def to_string_int (i : Int) : Str :=
  if i < 0 then '-' :: Nat.toDigits 10 i.natAbs else Nat.toDigits 10 i.natAbs

/-! ## Validation -/

/-- The loop of `isAValidCommand`, started at index `i`: it compares
`VALID_COMMANDS.at(i)` with the upper-cased command for `i < MAX_COMMANDS`.
The argument `n` counts the remaining iterations `MAX_COMMANDS - i`. -/
def isAValidCommandLoop (commandToCheck : Str) : Nat → Nat → Bool
  | 0, _ => false
  | n + 1, i =>
    if VALID_COMMANDS.get? i = some (stringToUpperCase commandToCheck) then true
    else isAValidCommandLoop commandToCheck n (i + 1)

/-- Check if the command input by user is valid (`isAValidCommand`). -/
def isAValidCommand (commandToCheck : Str) : Bool :=
  isAValidCommandLoop commandToCheck MAX_COMMANDS 0

/-- The loop of `isAValidNumber` over the remaining characters, with the current
value of `dotCounter`. -/
def isAValidNumberLoop : Str → Nat → Bool
  | [], _ => true
  | c :: rest, dotCounter =>
    if c = '.' then
      if dotCounter > 1 then false
      else isAValidNumberLoop rest (dotCounter + 1)
    else if !isnumber c then false
    else isAValidNumberLoop rest dotCounter

/-- Check if an input number is valid (`isAValidNumber`). -/
def isAValidNumber (valueToCheck : Str) : Bool :=
  isAValidNumberLoop valueToCheck 0

/-- Validate input and return it; if invalid, return the empty string
(`validateAndReturnParsedInput`). -/
def validateAndReturnParsedInput (input : Str) (inputCount : Nat) : Str :=
  if inputCount = 0 then
    (if isAValidCommand input then input else [])
  else
    (if isAValidNumber input then input else [])

/-! ## Output -/

/-- Show the command format and example to user (`showCommandFormatAndExample`);
the value is the text printed. -/
def showCommandFormatAndExample : Str :=
  "<--------------------------------------------------------------------------------->".toList ++ endl
  ++ "Format of input is <command> <operand1> <operand2>".toList ++ endl
  ++ "Example: add 100 50".toList ++ endl
  ++ "<--------------------------------------------------------------------------------->".toList ++ endl
  ++ "Enter \"Quit\", to exit!".toList ++ endl
  ++ "<--------------------------------------------------------------------------------->".toList ++ endl
  ++ endl

/-- Show invalid input error message (`showErrorMessage`); the value is the text
printed. -/
def showErrorMessage (invalidInput message : Str) : Str :=
  endl
  ++ (if invalidInput ≠ [] then message ++ invalidInput ++ " received!".toList ++ endl
      else message ++ endl)
  ++ (if message ≠ RETRY_ATTEMPTS_EXHAUSTED then showCommandFormatAndExample else [])
  ++ endl

/-! ## The string-keyed map -/

/-- The C++ type `std::map<string,string>`: key/value pairs in increasing key order. -/
abbrev StrMap := List (Str × Str)

/-- The member `map::emplace`: inserts the pair at its place in key order unless the
key is already present. -/
def StrMap.emplace (key value : Str) : StrMap → StrMap
  | [] => [(key, value)]
  | (k, v) :: rest =>
    if key = k then (k, v) :: rest
    else if key < k then (key, value) :: (k, v) :: rest
    else (k, v) :: StrMap.emplace key value rest

/-- The lookup `map::find`: the value stored under `key`, if any. -/
def StrMap.find (key : Str) : StrMap → Option Str
  | [] => none
  | (k, v) :: rest => if key = k then some v else StrMap.find key rest

/-- The member `map::operator[]`: the value stored under `key`; a missing key is
first inserted with the empty string.  Returns the value and the updated map. -/
def StrMap.index (m : StrMap) (key : Str) : Str × StrMap :=
  match StrMap.find key m with
  | some v => (v, m)
  | none => ([], StrMap.emplace key [] m)

/-! ## The input stream -/

/-- The state of a `std::istringstream`: the unread characters and two state bits. -/
structure IStringStream where
  buf : Str
  eofbit : Bool
  failbit : Bool
deriving DecidableEq

/-- A stream freshly constructed over `input`. -/
def istringstream (input : Str) : IStringStream := ⟨input, false, false⟩

/-- The member `eof()`. -/
def IStringStream.eof (s : IStringStream) : Bool := s.eofbit

/-- The extraction loop of `std::getline`: reads characters up to the delimiter
(which is consumed and dropped) or the end of the buffer.  Returns the characters
read, the unread rest, and whether the end of the buffer was reached. -/
def getlineScan (delim : Char) : Str → Str × Str × Bool
  | [] => ([], [], true)
  | c :: rest =>
    if c = delim then ([], rest, false)
    else
      match getlineScan delim rest with
      | (word, rest', hitEnd) => (c :: word, rest', hitEnd)

/-- The function `std::getline(stream, str, delim)`.  If the stream is not good the
sentry fails: `failbit` is set and `str` is left alone.  Otherwise `str` is replaced
by the characters read; reaching the end sets `eofbit`, and `failbit` too when nothing
was extracted. -/
def getline (s : IStringStream) (str : Str) (delim : Char) : Str × IStringStream :=
  if s.eofbit || s.failbit then (str, ⟨s.buf, s.eofbit, true⟩)
  else
    match getlineScan delim s.buf with
    | (word, rest, hitEnd) => (word, ⟨rest, hitEnd, hitEnd && word.isEmpty⟩)

/-! ## Floating point

`double` is IEEE-754 binary64 with round-to-nearest, ties-to-even.  A finite value is
carried by the rational number it denotes, so the two zeros are one value; the
program only converts unsigned literals and performs one operation on them, which
never yields a negative zero. -/

/-- The C++ type `double`. -/
inductive Double where
  | finite (value : ℚ)
  | infinity (negative : Bool)
  | nan
deriving DecidableEq

/-- Rounding of a rational to the nearest integer, ties to the even one. -/
def roundHalfEven (x : ℚ) : ℤ :=
  if x - ⌊x⌋ < 1 / 2 then ⌊x⌋
  else if 1 / 2 < x - ⌊x⌋ then ⌊x⌋ + 1
  else if ⌊x⌋ % 2 = 0 then ⌊x⌋ else ⌊x⌋ + 1

/-- Number of binary digits of `n`, by repeated halving; `fuel` bounds the halvings. -/
def bitLengthAux : Nat → Nat → Nat
  | 0, _ => 0
  | fuel + 1, n => if n = 0 then 0 else bitLengthAux fuel (n / 2) + 1

/-- Number of binary digits of `n` (`0` for `n = 0`). -/
def bitLength (n : Nat) : Nat := bitLengthAux n n

/-- The binary exponent of a non-zero rational: the `e` with `2^e ≤ |x| < 2^(e+1)`. -/
def binade (x : ℚ) : ℤ :=
  let e : ℤ := (bitLength x.num.natAbs : ℤ) - (bitLength x.den : ℤ)
  if |x| < 2 ^ e then e - 1 else e

/-- Exponent of the unit in the last place of the binary64 values around `x`: 52 below
the binary exponent of `x`, and never below that of the subnormal numbers. -/
def Double.quantum (x : ℚ) : ℤ := max (binade x) (-1022) - 52

/-- The binary64 value nearest to the rational `x` (ties to even); a result of
magnitude `2^1024` or more is an overflow and becomes an infinity. -/
def Double.round (x : ℚ) : Double :=
  let v : ℚ := roundHalfEven (x / 2 ^ Double.quantum x) * 2 ^ Double.quantum x
  if (2 : ℚ) ^ (1024 : ℤ) ≤ |v| then .infinity (decide (x < 0)) else .finite v

/-- Add two numbers and returns the result (`addNumbers`): binary64 addition. -/
def addNumbers : Double → Double → Double
  | .finite a, .finite b => Double.round (a + b)
  | .finite _, .infinity s => .infinity s
  | .infinity s, .finite _ => .infinity s
  | .infinity s, .infinity t => if s = t then .infinity s else .nan
  | _, _ => .nan

/-- Subtract two numbers and returns the result (`subtractNumbers`): binary64
subtraction. -/
def subtractNumbers : Double → Double → Double
  | .finite a, .finite b => Double.round (a - b)
  | .finite _, .infinity s => .infinity (!s)
  | .infinity s, .finite _ => .infinity s
  | .infinity s, .infinity t => if s = t then .nan else .infinity s
  | _, _ => .nan

/-- Multiply two numbers and returns the result (`multiplyNumbers`): binary64
multiplication. -/
def multiplyNumbers : Double → Double → Double
  | .finite a, .finite b => Double.round (a * b)
  | .finite a, .infinity s => if a = 0 then .nan else .infinity (xor s (decide (a < 0)))
  | .infinity s, .finite b => if b = 0 then .nan else .infinity (xor s (decide (b < 0)))
  | .infinity s, .infinity t => .infinity (xor s t)
  | _, _ => .nan

/-- Divide two numbers and returns the result (`divideNumbers`): binary64 division.
There is no guard: a finite non-zero value divided by zero is an infinity, and
zero divided by zero is a NaN. -/
def divideNumbers : Double → Double → Double
  | .finite a, .finite b =>
    if b = 0 then (if a = 0 then .nan else .infinity (decide (a < 0)))
    else Double.round (a / b)
  | .finite _, .infinity _ => .finite 0
  | .infinity s, .finite b => .infinity (xor s (decide (b < 0)))
  | _, _ => .nan

/-- Perform requested operation (`performOperation`). -/
def performOperation (command : Str) (firstNumber secondnNumber : Double) : Double :=
  let formattedCommand := stringToUpperCase command
  if formattedCommand = ADD then addNumbers firstNumber secondnNumber
  else if formattedCommand = SUBTRACT then subtractNumbers firstNumber secondnNumber
  else if formattedCommand = MULTIPLY then multiplyNumbers firstNumber secondnNumber
  -- Safely assume it is Division, as invalid commands would have been rejected
  else divideNumbers firstNumber secondnNumber

/-- The ways in which `getResult` can end without returning a string: one of the two
exceptions of `std::stod`, or the undefined conversion of a `double` that does not fit
an `int`. -/
inductive Abort where
  | invalid_argument
  | out_of_range
  | undefined_conversion
deriving DecidableEq

deriving instance DecidableEq for Except

/-- The value of a string of decimal digits read from the left, continuing from `acc`. -/
def digitsValue : Str → Nat → Nat
  | [], acc => acc
  | c :: rest, acc => digitsValue rest (acc * 10 + (c.toNat - '0'.toNat))

/-- The function `std::stod`, on the strings that reach it in this program: validated
operand tokens and the empty string, all made of digits and `'.'` only.  On these
`strtod` reads the longest prefix `digits [ '.' digits ]`.  Without any digit there is
no conversion (`invalid_argument`); the value is rounded to binary64, and a result that
overflows, or that is non-zero and below the least normal number `2^-1022`, sets
`ERANGE` (`out_of_range`).  Signs, exponents and leading blanks are not modelled. -/
def stod (str : Str) : Except Abort Double :=
  let intDigits := str.takeWhile Char.isDigit
  let fracDigits :=
    match str.dropWhile Char.isDigit with
    | '.' :: rest => rest.takeWhile Char.isDigit
    | _ => []
  if intDigits = [] ∧ fracDigits = [] then .error .invalid_argument
  else
    let exact : ℚ := (digitsValue (intDigits ++ fracDigits) 0 : ℚ) / 10 ^ fracDigits.length
    match Double.round exact with
    | .finite v =>
      if exact ≠ 0 ∧ |v| < 2 ^ (-1022 : ℤ) then .error .out_of_range else .ok (.finite v)
    | _ => .error .out_of_range

/-- The conversion `(int) result`: truncation toward zero; the behaviour is undefined
(`none`) when the truncated value is not representable in a 32-bit `int`. -/
def castToInt : Double → Option Int
  | .finite v =>
    let t : ℤ := if 0 ≤ v then ⌊v⌋ else ⌈v⌉
    if -2 ^ 31 ≤ t ∧ t ≤ 2 ^ 31 - 1 then some t else none
  | _ => none

/-- The function `std::to_string(double)`, which prints with the format `%f`: the
value rounded to six decimals (ties to even), in fixed notation; an infinity prints as
`inf` or `-inf` and a NaN as `nan`, as the BSD C library prints it, which also provides
the `isnumber` this program calls (the sign that other libraries print before `nan` is
not modelled). -/
def to_string_double : Double → Str
  | .finite v =>
    let scaled : Nat := (roundHalfEven (|v| * 10 ^ 6)).toNat
    (if v < 0 then ['-'] else [])
      ++ Nat.toDigits 10 (scaled / 10 ^ 6) ++ ['.']
      ++ List.leftpad 6 '0' (Nat.toDigits 10 (scaled % 10 ^ 6))
  | .infinity negative => if negative then "-inf".toList else "inf".toList
  | .nan => "nan".toList

/-- Get the result of requested operation (`getResult`).  The map is taken by value;
every `command[...]` is a `map::operator[]` on that copy. -/
def getResult (command : StrMap) : Except Abort Str :=
  match StrMap.index command "1".toList with
  | (op1, m1) =>
    -- the right operand of `||` is evaluated only when the left one is false
    match (if isAFloatingPointNumber op1 then (true, m1)
           else (isAFloatingPointNumber (StrMap.index m1 "2".toList).1,
                 (StrMap.index m1 "2".toList).2)) with
    | (atLeastOneInputIsFloat, m2) =>
      match stod (StrMap.index m2 "1".toList).1 with
      | .error e => .error e
      | .ok firstNumber =>
        let m3 := (StrMap.index m2 "1".toList).2
        match stod (StrMap.index m3 "2".toList).1 with
        | .error e => .error e
        | .ok secondNumber =>
          let m4 := (StrMap.index m3 "2".toList).2
          let result :=
            performOperation (StrMap.index m4 "0".toList).1 firstNumber secondNumber
          if atLeastOneInputIsFloat then .ok (to_string_double result)
          else
            match castToInt result with
            | some i => .ok (to_string_int i)
            | none => .error .undefined_conversion

/-! ## Parsing -/

/-- The outcome of `parseUserInput`: the returned map and the text printed. -/
structure ParseOutcome where
  parsed : StrMap
  output : Str
deriving DecidableEq

/-- The `while (true)` loop of `parseUserInput`.  One unit of fuel is one iteration;
`none` means the fuel ran out before the loop was left. -/
def parseLoop : Nat → IStringStream → Nat → StrMap → Str → Option ParseOutcome
  | 0, _, _, _, _ => none
  | fuel + 1, streamOfUserInput, inputCount, parsedUserInput, out =>
    match getline streamOfUserInput [] ' ' with
    | (wordFromInput, stream') =>
      if inputCount > 3 then
        some ⟨parsedUserInput, out ++ showErrorMessage wordFromInput EXTRANEOUS_INPUT⟩
      else
        let editedInputWord := validateAndReturnParsedInput wordFromInput inputCount
        if editedInputWord ≠ [] then
          let parsed' :=
            StrMap.emplace (to_string_int inputCount) editedInputWord parsedUserInput
          if stream'.eof then some ⟨parsed', out⟩
          else parseLoop fuel stream' (inputCount + 1) parsed' out
        else
          some ⟨[], out ++ showErrorMessage wordFromInput INVALID_INPUT⟩

/-- Edit check and parse user input (`parseUserInput`).  Every iteration that stays in
the loop has consumed a delimiter, so `input.length + 1` iterations are enough;
`parseUserInput_total` proves that the fuel never runs out. -/
def parseUserInput (input : Str) : Option ParseOutcome :=
  parseLoop (input.length + 1) (istringstream input) 0 [] []

/-! ## The interaction loop -/

/-- The call `getline(cin, input)` on a fresh, empty `input`; standard input is the list
of the lines still to be read.  At the end of input nothing is extracted and `input`
stays empty.  Returns the line and the lines left. -/
def getlineCin (stdin : List Str) : Str × List Str :=
  match stdin with
  | [] => ([], [])
  | line :: rest => (line, rest)

/-- Prompt user for input (`promptAndGetInputFromUser`).  Returns the line read, the
lines left on standard input, and the text printed. -/
def promptAndGetInputFromUser (stdin : List Str) : Str × List Str × Str :=
  ((getlineCin stdin).1, (getlineCin stdin).2,
    showCommandFormatAndExample ++ "Enter the command : ".toList)

/-- The line of 83 `=` signs that `main` prints around a result. -/
def resultBanner : Str := List.replicate 83 '='

/-- What one pass through the body of the `while` loop of `main` leads to, with the text
it printed: back to the loop test with a new `retryCount`, a `return` from `main`, or
the end of the process inside `getResult` (an uncaught exception, or an undefined
conversion). -/
inductive IterationResult where
  | next (retryCount : Nat) (output : Str)
  | returned (code : Int) (output : Str)
  | aborted (e : Abort) (output : Str)
deriving DecidableEq

/-- The body of the `while` loop of `main` once `input` has been read.  The operands of
`<<` are evaluated from left to right, so the text before the result is printed before
`getResult` is called. -/
def mainIteration (retryCount : Nat) (input : Str) : Option IterationResult :=
  match parseUserInput input with
  | none => none
  | some ⟨command, printed⟩ =>
    if command ≠ [] then
      if stringToUpperCase (StrMap.index command "0".toList).1 = QUIT then
        some (.returned 0 printed)
      else
        let command1 := (StrMap.index command "0".toList).2
        let before := printed ++ endl ++ resultBanner ++ endl
          ++ "The result of the \"".toList ++ (StrMap.index command1 "0".toList).1
          ++ "\" operation is: ".toList
        match getResult (StrMap.index command1 "0".toList).2 with
        | .ok result =>
          some (.next 0 (before ++ result ++ endl ++ resultBanner ++ endl ++ endl))
        | .error e => some (.aborted e before)
    else some (.next (retryCount + 1) printed)

/-- How the process ends: by a `return` from `main` with an exit code, or inside
`getResult` without returning. -/
inductive Termination where
  | returned (code : Int)
  | aborted (e : Abort)
deriving DecidableEq

/-- The end of a run of `main`: how it ended, the final value of `retryCount`, and all
the text printed. -/
structure MainOutcome where
  termination : Termination
  retryCount : Nat
  output : Str
deriving DecidableEq

/-- The `while` loop of `main` and the code after it.  One unit of fuel is one
evaluation of the loop test; `none` means the fuel ran out.  The flag
`commandFinished` is never set, so the test is `retryCount < MAX_RETRIES`. -/
def mainLoop : Nat → Nat → List Str → Str → Option MainOutcome
  | 0, _, _, _ => none
  | fuel + 1, retryCount, stdin, out =>
    if retryCount < MAX_RETRIES then
      match promptAndGetInputFromUser stdin with
      | (input, stdin', prompt) =>
        match mainIteration retryCount input with
        | none => none
        | some (.next retryCount' printed) =>
          mainLoop fuel retryCount' stdin' (out ++ prompt ++ printed)
        | some (.returned code printed) =>
          some ⟨.returned code, retryCount, out ++ prompt ++ printed⟩
        | some (.aborted e printed) =>
          some ⟨.aborted e, retryCount, out ++ prompt ++ printed⟩
    else
      some ⟨.returned 0, retryCount,
        out ++ (if retryCount > MAX_RETRIES then showErrorMessage [] RETRY_ATTEMPTS_EXHAUSTED
                else [])⟩

/-- Main function (`main`), run on the lines of standard input.  Every pass through the
loop reads a line while there is one and counts a retry afterwards, so
`stdin.length + 4` evaluations of the loop test are enough; `main_total` proves that
the fuel never runs out. -/
def main (stdin : List Str) : Option MainOutcome :=
  mainLoop (stdin.length + 4) 0 stdin []

/-! ## Vocabulary of the specification -/

/-- The tokens of a line: the maximal runs of characters between space characters (a
leading, trailing or doubled space gives an empty token). -/
def tokens : Str → List Str
  | [] => [[]]
  | c :: rest =>
    if c = ' ' then [] :: tokens rest
    else
      match tokens rest with
      | [] => [[c]]
      | t :: ts => (c :: t) :: ts

/-- The string `c` is a re-casing of `keyword`: the same letters, each in either
case. -/
def isRecasingOf : Str → Str → Bool
  | [], [] => true
  | x :: xs, y :: ys => (x == y || x == y.toLower || x == y.toUpper) && isRecasingOf xs ys
  | _, _ => false

/-- An operand token as the specification describes it: non-empty, made only of
decimal digits and at most one `'.'`. -/
def isOperandToken (a : Str) : Bool :=
  !a.isEmpty && a.all (fun ch => ch.isDigit || ch == '.') && decide (a.count '.' ≤ 1)

/-- Letters whose two cases both upper-case to the letter itself and are not the space
character. -/
def isKeywordLetter (y : Char) : Bool :=
  toupper y == y && toupper y.toLower == y && toupper y.toUpper == y &&
    y != ' ' && y.toLower != ' ' && y.toUpper != ' '

/-- The loop of `parseUserInput` run over the token list instead of the stream; used
to reason about `parseLoop`, see `parseLoop_eq_parseTokens`. -/
def parseTokens : List Str → Nat → StrMap → Str → ParseOutcome
  | [], _, parsedUserInput, out => ⟨parsedUserInput, out⟩
  | wordFromInput :: rest, inputCount, parsedUserInput, out =>
    if inputCount > 3 then
      ⟨parsedUserInput, out ++ showErrorMessage wordFromInput EXTRANEOUS_INPUT⟩
    else if validateAndReturnParsedInput wordFromInput inputCount ≠ [] then
      if rest = [] then
        ⟨StrMap.emplace (to_string_int inputCount)
          (validateAndReturnParsedInput wordFromInput inputCount) parsedUserInput, out⟩
      else
        parseTokens rest (inputCount + 1)
          (StrMap.emplace (to_string_int inputCount)
            (validateAndReturnParsedInput wordFromInput inputCount) parsedUserInput) out
    else ⟨[], out ++ showErrorMessage wordFromInput INVALID_INPUT⟩

/-- A command map with the three entries a complete line yields. -/
def commandMap (c a b : Str) : StrMap :=
  [("0".toList, c), ("1".toList, a), ("2".toList, b)]

/-- The line made of a keyword and two operands separated by single spaces. -/
def commandLine (c a b : Str) : Str := c ++ " ".toList ++ a ++ " ".toList ++ b

/-- A non-empty token of decimal digits only. -/
def isDigitToken (a : Str) : Bool := !a.isEmpty && a.all Char.isDigit

/-- The exact integer result of the operation named by an upper-case keyword. -/
def exactResult (keyword : Str) (x y : Int) : Int :=
  if keyword = ADD then x + y else if keyword = SUBTRACT then x - y else x * y

/-- A rendering without its leading minus sign, if it has one. -/
def stripSign (s : Str) : Str := if s.head? = some '-' then s.tail else s

/-- Integer form: an optional minus sign followed by one or more decimal digits. -/
def isIntegerNotation (s : Str) : Bool :=
  !(stripSign s).isEmpty && (stripSign s).all Char.isDigit

/-- Fixed notation as printed by `%f`: an optional minus sign, one or more decimal
digits, a decimal point and exactly six fractional digits. -/
def isFixedNotation (s : Str) : Bool :=
  match (stripSign s).dropWhile Char.isDigit with
  | '.' :: frac =>
    !((stripSign s).takeWhile Char.isDigit).isEmpty && frac.length == 6 &&
      frac.all Char.isDigit
  | _ => false

/-- The value that `command[key]` reads: the stored value, or the empty string that
`operator[]` inserts for a missing key. -/
def valueAt (m : StrMap) (key : Str) : Str := (StrMap.find key m).getD []

/-- Letters whose lower-case and upper-case forms upper-case to the same character as
the letter itself, none of them the space character. -/
def isCaseLetter (y : Char) : Bool :=
  toupper y.toLower == toupper y && toupper y.toUpper == toupper y &&
    y != ' ' && y.toLower != ' ' && y.toUpper != ' '

/-- A decimal literal denoting zero: made of `'0'` and at most one `'.'`, with at least
one `'0'` (`0`, `00`, `0.`, `.0`, `0.00`, ...). -/
def isZeroLiteral (z : Str) : Bool :=
  z.all (fun ch => ch == '0' || ch == '.') && z.any (fun ch => ch == '0') &&
    decide (z.count '.' ≤ 1)

/-! ## The stream and the token list -/

theorem tokens_ne_nil (buf : Str) : tokens buf ≠ [] := by
  cases buf with
  | nil => simp [tokens]
  | cons c rest =>
    simp only [tokens]
    split
    · simp
    · split <;> simp

/-- What one `getline` extraction does, in terms of the token list. -/
theorem getlineScan_tokens (buf : Str) :
    ((getlineScan ' ' buf).2.2 = true ∧ tokens buf = [(getlineScan ' ' buf).1]) ∨
    ((getlineScan ' ' buf).2.2 = false ∧
      tokens buf = (getlineScan ' ' buf).1 :: tokens (getlineScan ' ' buf).2.1 ∧
      (getlineScan ' ' buf).2.1.length < buf.length) := by
  induction buf with
  | nil => left; simp [getlineScan, tokens]
  | cons c rest ih =>
    by_cases hc : c = ' '
    · right; simp [getlineScan, tokens, hc]
    · rcases ih with ⟨h1, h2⟩ | ⟨h1, h2, h3⟩
      · left
        simp only [getlineScan, tokens, hc, if_false]
        rw [h2]
        exact ⟨h1, rfl⟩
      · right
        simp only [getlineScan, tokens, hc, if_false]
        rw [h2]
        exact ⟨h1, rfl, Nat.lt_succ_of_lt h3⟩

/-- The stream loop computes `parseTokens` on the tokens of the unread input, as soon as
the fuel exceeds the number of unread characters. -/
theorem parseLoop_eq_parseTokens (fuel : Nat) :
    ∀ (buf : Str) (inputCount : Nat) (parsed : StrMap) (out : Str),
      buf.length < fuel →
      parseLoop fuel ⟨buf, false, false⟩ inputCount parsed out
        = some (parseTokens (tokens buf) inputCount parsed out) := by
  induction fuel with
  | zero => intro buf _ _ _ h; omega
  | succ fuel ih =>
    intro buf inputCount parsed out hlen
    rcases getlineScan_tokens buf with ⟨h1, h2⟩ | ⟨h1, h2, h3⟩
    · rw [h2]
      simp only [parseLoop, getline, Bool.or_self, Bool.false_eq_true, if_false, parseTokens,
        IStringStream.eof, h1, if_true]
      split
      · rfl
      · split <;> rfl
    · rw [h2]
      have hne := tokens_ne_nil (getlineScan ' ' buf).2.1
      simp only [parseLoop, getline, Bool.or_self, Bool.false_eq_true, if_false, parseTokens,
        IStringStream.eof, h1, hne, Bool.false_and]
      split
      · rfl
      · split
        · exact ih _ _ _ _ (Nat.lt_of_lt_of_le h3 (Nat.le_of_lt_succ hlen))
        · rfl

/-- The loop of `parseUserInput` always returns: the fuel never runs out, and the
result is `parseTokens` on the tokens of the line. -/
theorem parseUserInput_eq_parseTokens (input : Str) :
    parseUserInput input = some (parseTokens (tokens input) 0 [] []) :=
  parseLoop_eq_parseTokens _ input 0 [] [] (Nat.lt_succ_self _)

theorem parseUserInput_total (input : Str) : (parseUserInput input).isSome = true := by
  rw [parseUserInput_eq_parseTokens]; rfl

/-! ## Validation lemmas -/

theorem tokens_append_space (w rest : Str) (hw : ' ' ∉ w) :
    tokens (w ++ ' ' :: rest) = w :: tokens rest := by
  induction w with
  | nil => simp [tokens]
  | cons c w ih =>
    have hc : c ≠ ' ' := fun h => hw (by simp [h])
    have hw2 : ' ' ∉ w := fun h => hw (by simp [h])
    have h := ih hw2
    show tokens (c :: (w ++ ' ' :: rest)) = _
    simp only [tokens, hc, if_false, h]

theorem tokens_of_no_space (w : Str) (hw : ' ' ∉ w) : tokens w = [w] := by
  induction w with
  | nil => simp [tokens]
  | cons c w ih =>
    have hc : c ≠ ' ' := fun h => hw (by simp [h])
    have hw2 : ' ' ∉ w := fun h => hw (by simp [h])
    simp only [tokens, hc, if_false, ih hw2]

/-- The loop of `isAValidCommand` is membership of the upper-cased token in the
command table. -/
theorem isAValidCommand_iff (t : Str) :
    isAValidCommand t = true ↔
      (stringToUpperCase t = ADD ∨ stringToUpperCase t = SUBTRACT ∨
        stringToUpperCase t = MULTIPLY ∨ stringToUpperCase t = DIVIDE ∨
        stringToUpperCase t = QUIT) := by
  simp only [isAValidCommand, MAX_COMMANDS, isAValidCommandLoop, VALID_COMMANDS,
    List.get?_cons_zero, List.get?_cons_succ, Option.some.injEq]
  by_cases h1 : ADD = stringToUpperCase t
  · simp [h1]
  by_cases h2 : SUBTRACT = stringToUpperCase t
  · simp [h2]
  by_cases h3 : MULTIPLY = stringToUpperCase t
  · simp [h3]
  by_cases h4 : DIVIDE = stringToUpperCase t
  · simp [h4]
  by_cases h5 : QUIT = stringToUpperCase t
  · simp [h5]
  simp only [h1, h2, h3, h4, h5, if_false, Bool.false_eq_true, false_iff, not_or]
  exact ⟨fun h => h1 h.symm, fun h => h2 h.symm, fun h => h3 h.symm, fun h => h4 h.symm,
    fun h => h5 h.symm⟩

theorem isAValidCommand_nil : isAValidCommand [] = false := by decide

theorem isRecasingOf_spec (k : Str) (hk : k.all isKeywordLetter = true) :
    ∀ c : Str, isRecasingOf c k = true →
      stringToUpperCase c = k ∧ ' ' ∉ c ∧ c.length = k.length := by
  induction k with
  | nil =>
    intro c hc
    cases c with
    | nil => simp [stringToUpperCase]
    | cons x xs => simp [isRecasingOf] at hc
  | cons y ys ih =>
    intro c hc
    cases c with
    | nil => simp [isRecasingOf] at hc
    | cons x xs =>
      simp only [isRecasingOf, Bool.and_eq_true, Bool.or_eq_true, beq_iff_eq] at hc
      simp only [List.all_cons, Bool.and_eq_true] at hk
      obtain ⟨hy, hys⟩ := hk
      obtain ⟨h1, h2, h3⟩ := ih hys xs hc.2
      simp only [isKeywordLetter, Bool.and_eq_true, beq_iff_eq, bne_iff_ne, ne_eq] at hy
      obtain ⟨⟨⟨⟨⟨a1, a2⟩, a3⟩, a4⟩, a5⟩, a6⟩ := hy
      refine ⟨?_, ?_, by simp [h3]⟩
      · simp only [stringToUpperCase, h1, List.cons.injEq, and_true]
        rcases hc.1 with (rfl | rfl) | rfl <;> assumption
      · simp only [List.mem_cons, not_or]
        refine ⟨?_, h2⟩
        rcases hc.1 with (rfl | rfl) | rfl
        · exact fun h => a4 h.symm
        · exact fun h => a5 h.symm
        · exact fun h => a6 h.symm

theorem isAValidNumberLoop_of_chars :
    ∀ (cs : Str) (k : Nat), (∀ ch ∈ cs, ch.isDigit = true ∨ ch = '.') →
      cs.count '.' + k ≤ 2 → isAValidNumberLoop cs k = true := by
  intro cs
  induction cs with
  | nil => intro k _ _; rfl
  | cons c rest ih =>
    intro k hall hcount
    by_cases hc : c = '.'
    · subst hc
      simp only [List.count_cons_self] at hcount
      have hk : ¬ k > 1 := by omega
      simp only [isAValidNumberLoop, if_true, hk, if_false]
      exact ih (k + 1) (fun ch h => hall ch (List.mem_cons_of_mem _ h)) (by omega)
    · have hd : c.isDigit = true := by
        rcases hall c (List.mem_cons_self _ _) with h | h
        · exact h
        · exact absurd h hc
      have hcnt : List.count '.' (c :: rest) = List.count '.' rest :=
        List.count_cons_of_ne (fun h => hc h.symm) rest
      rw [hcnt] at hcount
      simp only [isAValidNumberLoop, hc, if_false, isnumber, hd, Bool.not_true,
        Bool.false_eq_true]
      exact ih k (fun ch h => hall ch (List.mem_cons_of_mem _ h)) hcount

/-- An operand token in the sense of the specification is accepted by the validator and
holds no space. -/
theorem isOperandToken_spec (a : Str) (ha : isOperandToken a = true) :
    a ≠ [] ∧ ' ' ∉ a ∧ isAValidNumber a = true := by
  simp only [isOperandToken, Bool.and_eq_true, Bool.not_eq_true', List.isEmpty_eq_false,
    List.all_eq_true, Bool.or_eq_true, beq_iff_eq, decide_eq_true_eq] at ha
  obtain ⟨⟨h1, h2⟩, h3⟩ := ha
  refine ⟨by simpa using h1, ?_, ?_⟩
  · intro hmem
    rcases h2 _ hmem with h | h
    · exact absurd h (by decide)
    · exact absurd h (by decide)
  · exact isAValidNumberLoop_of_chars a 0 h2 (by omega)

/-! ## Rounding to binary64 -/

theorem bitLengthAux_zero (fuel : Nat) : bitLengthAux fuel 0 = 0 := by
  cases fuel <;> simp [bitLengthAux]

theorem bitLengthAux_spec (fuel : Nat) :
    ∀ n : Nat, n ≤ fuel → n ≠ 0 →
      2 ^ (bitLengthAux fuel n - 1) ≤ n ∧ n < 2 ^ bitLengthAux fuel n ∧
        1 ≤ bitLengthAux fuel n := by
  induction fuel with
  | zero => intro n h h0; omega
  | succ fuel ih =>
    intro n hn h0
    simp only [bitLengthAux, h0, if_false]
    by_cases h2 : n / 2 = 0
    · have h1 : n = 1 := by omega
      subst h1
      simp [bitLengthAux_zero]
    · obtain ⟨l1, l2, l3⟩ := ih (n / 2) (by omega) h2
      refine ⟨?_, ?_, by omega⟩
      · have e : bitLengthAux fuel (n / 2) + 1 - 1 = (bitLengthAux fuel (n / 2) - 1) + 1 := by
          omega
        rw [e, pow_succ]
        omega
      · rw [pow_succ]
        omega

theorem bitLength_spec (n : Nat) (h0 : n ≠ 0) :
    2 ^ (bitLength n - 1) ≤ n ∧ n < 2 ^ bitLength n ∧ 1 ≤ bitLength n :=
  bitLengthAux_spec n n (Nat.le_refl n) h0

/-- The binary exponent brackets the magnitude: `2^e ≤ |x| < 2^(e+1)`. -/
theorem binade_spec (x : ℚ) (hx : x ≠ 0) :
    (2 : ℚ) ^ binade x ≤ |x| ∧ |x| < (2 : ℚ) ^ (binade x + 1) := by
  have hn : x.num.natAbs ≠ 0 := by
    simpa using hx
  have hd : x.den ≠ 0 := x.den_nz
  obtain ⟨n1, n2, n3⟩ := bitLength_spec _ hn
  obtain ⟨d1, d2, d3⟩ := bitLength_spec _ hd
  have habs : |x| = (x.num.natAbs : ℚ) / (x.den : ℚ) := by
    have h := Rat.num_div_den x
    have hdpos : (0 : ℚ) < x.den := by exact_mod_cast Nat.pos_of_ne_zero hd
    rw [← h]
    rw [abs_div, abs_of_pos hdpos]
    congr 1
    · rw [Rat.num_div_den]
      rw [Nat.cast_natAbs]
      simp
    · rw [Rat.num_div_den]
  set a := bitLength x.num.natAbs with ha
  set b := bitLength x.den with hb
  have hdpos : (0 : ℚ) < x.den := by exact_mod_cast Nat.pos_of_ne_zero hd
  have two_pos : (0 : ℚ) < 2 := by norm_num
  -- bounds on numerator and denominator as rationals
  have N1 : (2 : ℚ) ^ ((a : ℤ) - 1) ≤ (x.num.natAbs : ℚ) := by
    have : ((2 ^ (a - 1) : ℕ) : ℚ) ≤ (x.num.natAbs : ℚ) := by exact_mod_cast n1
    have e : (a : ℤ) - 1 = ((a - 1 : ℕ) : ℤ) := by omega
    rw [e, zpow_natCast]
    simpa using this
  have N2 : (x.num.natAbs : ℚ) < (2 : ℚ) ^ (a : ℤ) := by
    have : (x.num.natAbs : ℚ) < ((2 ^ a : ℕ) : ℚ) := by exact_mod_cast n2
    rw [zpow_natCast]
    simpa using this
  have D1 : (2 : ℚ) ^ ((b : ℤ) - 1) ≤ (x.den : ℚ) := by
    have : ((2 ^ (b - 1) : ℕ) : ℚ) ≤ (x.den : ℚ) := by exact_mod_cast d1
    have e : (b : ℤ) - 1 = ((b - 1 : ℕ) : ℤ) := by omega
    rw [e, zpow_natCast]
    simpa using this
  have D2 : (x.den : ℚ) < (2 : ℚ) ^ (b : ℤ) := by
    have : (x.den : ℚ) < ((2 ^ b : ℕ) : ℚ) := by exact_mod_cast d2
    rw [zpow_natCast]
    simpa using this
  -- the quotient lies in `[2^(a-b-1), 2^(a-b+1))`
  have L : (2 : ℚ) ^ ((a : ℤ) - b - 1) ≤ |x| := by
    rw [habs, le_div_iff₀ hdpos]
    calc (2 : ℚ) ^ ((a : ℤ) - b - 1) * x.den
        ≤ (2 : ℚ) ^ ((a : ℤ) - b - 1) * (2 : ℚ) ^ (b : ℤ) :=
          mul_le_mul_of_nonneg_left (le_of_lt D2) (le_of_lt (zpow_pos two_pos _))
      _ = (2 : ℚ) ^ ((a : ℤ) - 1) := by
          rw [← zpow_add₀ (by norm_num : (2 : ℚ) ≠ 0)]
          congr 1
          ring
      _ ≤ x.num.natAbs := N1
  have U : |x| < (2 : ℚ) ^ ((a : ℤ) - b + 1) := by
    rw [habs, div_lt_iff₀ hdpos]
    calc (x.num.natAbs : ℚ) < (2 : ℚ) ^ (a : ℤ) := N2
      _ = (2 : ℚ) ^ ((a : ℤ) - b + 1) * (2 : ℚ) ^ ((b : ℤ) - 1) := by
          rw [← zpow_add₀ (by norm_num : (2 : ℚ) ≠ 0)]
          congr 1
          ring
      _ ≤ (2 : ℚ) ^ ((a : ℤ) - b + 1) * x.den :=
          mul_le_mul_of_nonneg_left D1 (le_of_lt (zpow_pos two_pos _))
  simp only [binade, ← ha, ← hb]
  split
  · rename_i hlt
    refine ⟨L, ?_⟩
    rw [show (a : ℤ) - b - 1 + 1 = (a : ℤ) - b by ring]
    exact hlt
  · rename_i hge
    exact ⟨not_lt.mp hge, U⟩

theorem roundHalfEven_intCast (z : ℤ) : roundHalfEven (z : ℚ) = z := by
  simp [roundHalfEven]

/-- The rounding yields the floor or the next integer, the latter only from the upper
half of the interval. -/
theorem roundHalfEven_cases (x : ℚ) :
    roundHalfEven x = ⌊x⌋ ∨ (roundHalfEven x = ⌊x⌋ + 1 ∧ 1 / 2 ≤ x - ⌊x⌋) := by
  unfold roundHalfEven
  split
  · left; rfl
  · rename_i h1
    split
    · right; exact ⟨rfl, not_lt.mp h1⟩
    · split
      · left; rfl
      · right; exact ⟨rfl, not_lt.mp h1⟩

/-- A value that is a whole number of quanta and below the overflow threshold is
represented exactly. -/
theorem Double.round_exact (x : ℚ) (w : ℤ) (hw : x / 2 ^ Double.quantum x = w)
    (hlt : |x| < (2 : ℚ) ^ (1024 : ℤ)) : Double.round x = .finite x := by
  have hpos : (2 : ℚ) ^ Double.quantum x ≠ 0 := zpow_ne_zero _ (by norm_num)
  have hv : (roundHalfEven (x / 2 ^ Double.quantum x) : ℚ) * 2 ^ Double.quantum x = x := by
    rw [hw, roundHalfEven_intCast, ← hw]
    field_simp
  simp only [Double.round, hv, not_le.mpr hlt, if_false]

theorem Double.round_zero : Double.round 0 = .finite 0 := by decide!

/-- Every integer of magnitude at most `2^53` is a binary64 value. -/
theorem Double.round_intCast (z : ℤ) (hz : |z| ≤ 2 ^ 53) :
    Double.round (z : ℚ) = .finite (z : ℚ) := by
  by_cases h0 : z = 0
  · subst h0; simpa using Double.round_zero
  have hx : (z : ℚ) ≠ 0 := by exact_mod_cast h0
  obtain ⟨b1, b2⟩ := binade_spec (z : ℚ) hx
  have habs : |(z : ℚ)| = ((|z| : ℤ) : ℚ) := by simp
  have hle : |(z : ℚ)| ≤ (2 : ℚ) ^ (53 : ℤ) := by
    rw [habs]
    have h : ((|z| : ℤ) : ℚ) ≤ ((2 ^ 53 : ℤ) : ℚ) := Int.cast_le.2 hz
    have e : ((2 ^ 53 : ℤ) : ℚ) = (2 : ℚ) ^ (53 : ℤ) := by norm_num
    rw [← e]; exact h
  have hge : (1 : ℚ) ≤ |(z : ℚ)| := by
    rw [habs]
    have : (1 : ℤ) ≤ |z| := Int.one_le_abs h0
    exact_mod_cast this
  have two : (1 : ℚ) < 2 := by norm_num
  have e_le : binade (z : ℚ) ≤ 53 :=
    (zpow_le_zpow_iff_right₀ two).1 (le_trans b1 hle)
  have e_ge : 0 ≤ binade (z : ℚ) := by
    have h : (2 : ℚ) ^ (0 : ℤ) < (2 : ℚ) ^ (binade (z : ℚ) + 1) := by
      simpa using lt_of_le_of_lt hge b2
    have := (zpow_lt_zpow_iff_right₀ two).1 h
    omega
  have hq : Double.quantum (z : ℚ) = binade (z : ℚ) - 52 := by
    simp only [Double.quantum]
    rw [max_eq_left (by omega)]
  have hlt : |(z : ℚ)| < (2 : ℚ) ^ (1024 : ℤ) :=
    lt_of_le_of_lt hle ((zpow_lt_zpow_iff_right₀ two).2 (by norm_num))
  by_cases hq0 : binade (z : ℚ) ≤ 52
  · -- the quantum is `2^(-n)`: every integer is a multiple of it
    obtain ⟨n, hn⟩ : ∃ n : ℕ, Double.quantum (z : ℚ) = -(n : ℤ) :=
      ⟨(52 - binade (z : ℚ)).toNat, by rw [hq]; omega⟩
    apply Double.round_exact (z : ℚ) (z * 2 ^ n) _ hlt
    rw [hn, zpow_neg, zpow_natCast]
    push_cast
    field_simp
  · -- the binary exponent is 53, so the magnitude is exactly `2^53`
    have he : binade (z : ℚ) = 53 := by omega
    have hq1 : Double.quantum (z : ℚ) = 1 := by rw [hq, he]; norm_num
    rw [he] at b1
    have habsz : |z| = 2 ^ 53 := by
      apply le_antisymm hz
      have e : ((2 ^ 53 : ℤ) : ℚ) = (2 : ℚ) ^ (53 : ℤ) := by norm_num
      have : ((2 ^ 53 : ℤ) : ℚ) ≤ ((|z| : ℤ) : ℚ) := by
        rw [← habs, e]; exact b1
      exact Int.cast_le.1 this
    have hz2 : z = 2 ^ 53 ∨ z = -2 ^ 53 := by
      rcases abs_cases z with ⟨h, _⟩ | ⟨h, _⟩
      · left; omega
      · right; omega
    rcases hz2 with h | h
    · apply Double.round_exact (z : ℚ) (2 ^ 52) _ hlt
      rw [hq1, h]; norm_num
    · apply Double.round_exact (z : ℚ) (-2 ^ 52) _ hlt
      rw [hq1, h]; norm_num

/-! ## `getResult` on a complete command -/

/-- On a map with the three entries, `getResult` converts the two operands, performs
the operation and renders the result; no `operator[]` inserts anything. -/
theorem getResult_commandMap (c a b : Str) :
    getResult (commandMap c a b) =
      match stod a with
      | .error e => .error e
      | .ok x =>
        match stod b with
        | .error e => .error e
        | .ok y =>
          if (isAFloatingPointNumber a || isAFloatingPointNumber b) = true then
            .ok (to_string_double (performOperation c x y))
          else
            match castToInt (performOperation c x y) with
            | some i => .ok (to_string_int i)
            | none => .error .undefined_conversion := by
  have k10 : ¬ ("1".toList = "0".toList) := by decide
  have k20 : ¬ ("2".toList = "0".toList) := by decide
  have k21 : ¬ ("2".toList = "1".toList) := by decide
  have f0 : StrMap.find "0".toList (commandMap c a b) = some c := by
    simp [StrMap.find, commandMap]
  have f1 : StrMap.find "1".toList (commandMap c a b) = some a := by
    simp only [StrMap.find, commandMap, k10, if_false, if_true]
  have f2 : StrMap.find "2".toList (commandMap c a b) = some b := by
    simp only [StrMap.find, commandMap, k20, k21, if_false, if_true]
  have i0 : StrMap.index (commandMap c a b) "0".toList = (c, commandMap c a b) := by
    simp only [StrMap.index, f0]
  have i1 : StrMap.index (commandMap c a b) "1".toList = (a, commandMap c a b) := by
    simp only [StrMap.index, f1]
  have i2 : StrMap.index (commandMap c a b) "2".toList = (b, commandMap c a b) := by
    simp only [StrMap.index, f2]
  unfold getResult
  rw [i1]
  cases hA : isAFloatingPointNumber a
  · simp only [hA, Bool.false_eq_true, if_false, i1, i2, i0, Bool.false_or]
  · simp only [hA, if_true, i1, i2, i0, Bool.true_or]

theorem isDigitToken_spec (a : Str) (ha : isDigitToken a = true) :
    a ≠ [] ∧ (∀ ch ∈ a, ch.isDigit = true) := by
  simp only [isDigitToken, Bool.and_eq_true, Bool.not_eq_true', List.isEmpty_eq_false,
    List.all_eq_true] at ha
  exact ⟨by simpa using ha.1, ha.2⟩

theorem isAFloatingPointNumber_of_digits (a : Str) (h : ∀ ch ∈ a, ch.isDigit = true) :
    isAFloatingPointNumber a = false := by
  induction a with
  | nil => rfl
  | cons c rest ih =>
    have hc : c ≠ '.' := by
      intro hdot
      have := h c (List.mem_cons_self _ _)
      rw [hdot] at this
      exact absurd this (by decide)
    simp only [isAFloatingPointNumber, hc, if_false]
    exact ih (fun ch hm => h ch (List.mem_cons_of_mem _ hm))

/-- On a token of digits denoting at most `2^53`, `stod` returns the value denoted. -/
theorem stod_digits (a : Str) (ha : isDigitToken a = true) (hA : digitsValue a 0 ≤ 2 ^ 53) :
    stod a = .ok (.finite (digitsValue a 0 : ℚ)) := by
  obtain ⟨hne, hall⟩ := isDigitToken_spec a ha
  have htake : a.takeWhile Char.isDigit = a := List.takeWhile_eq_self_iff.2 hall
  have hdrop : a.dropWhile Char.isDigit = [] := List.dropWhile_eq_nil_iff.2 hall
  have hround : Double.round (digitsValue a 0 : ℚ) = .finite (digitsValue a 0 : ℚ) := by
    have h := Double.round_intCast (digitsValue a 0 : ℤ)
      (by rw [abs_of_nonneg (by positivity)]; exact_mod_cast hA)
    simpa using h
  have hsmall : ¬ ((digitsValue a 0 : ℚ) ≠ 0 ∧
      |(digitsValue a 0 : ℚ)| < (2 : ℚ) ^ (-1022 : ℤ)) := by
    rintro ⟨h0, hlt⟩
    have h1 : (1 : ℚ) ≤ |(digitsValue a 0 : ℚ)| := by
      rw [abs_of_nonneg (by positivity)]
      have : digitsValue a 0 ≠ 0 := by exact_mod_cast h0
      exact_mod_cast Nat.one_le_iff_ne_zero.2 this
    have h2 : (2 : ℚ) ^ (-1022 : ℤ) ≤ 1 := zpow_le_one_of_nonpos₀ (by norm_num) (by norm_num)
    linarith
  simp only [stod, htake, hdrop, List.append_nil, List.length_nil, pow_zero, div_one, hne,
    false_and, if_false, hround, hsmall]

theorem castToInt_intCast (z : ℤ) (h1 : -2 ^ 31 ≤ z) (h2 : z ≤ 2 ^ 31 - 1) :
    castToInt (.finite (z : ℚ)) = some z := by
  simp only [castToInt, Int.floor_intCast, Int.ceil_intCast, ite_self, h1, h2, and_self,
    if_true]


/-- Rounding a quotient up by one unit in the last place does not reach the next
integer: arithmetic core of the division result. -/
theorem round_up_stays (a b K f r n : ℕ) (hK : 0 < K) (hb : 0 < b)
    (h1 : b * f + r = a * K) (hr : r < b) (hn : f / K = n) (hbn : a / b = n)
    (h4 : b ≤ 2 * r) (h5 : 2 ^ 52 * b ≤ a * K) (h6 : a ≤ 2 ^ 53) : (f + 1) / K = n := by
  have lo : n * K ≤ f := by rw [← hn]; exact Nat.div_mul_le_self f K
  have hi : f < (n + 1) * K := by
    rw [← hn]
    have := Nat.lt_succ_self (f / K)
    exact (Nat.div_lt_iff_lt_mul hK).1 this
  apply Nat.div_eq_of_lt_le
  · omega
  · by_contra hcon
    have h3 : f + 1 = (n + 1) * K := by omega
    -- decompose `a = b * n + ρ`
    obtain ⟨ρ, hρ, hρb⟩ : ∃ ρ, b * n + ρ = a ∧ ρ < b :=
      ⟨a % b, by rw [← hbn]; exact Nat.div_add_mod a b, Nat.mod_lt a hb⟩
    obtain ⟨δ, hδ⟩ : ∃ δ, ρ + δ = b := ⟨b - ρ, by omega⟩
    have hδ1 : 1 ≤ δ := by omega
    -- `b = δ * K + r`
    have e1 : b * (f + 1) = b * ((n + 1) * K) := by rw [h3]
    have e2 : a * K + b = b * (n + 1) * K + r := by
      have : b * (f + 1) = b * f + b := by ring
      rw [this] at e1
      rw [← mul_assoc] at e1
      omega
    have e3 : b = δ * K + r := by
      have : a * K = b * n * K + ρ * K := by rw [← hρ]; ring
      rw [this] at e2
      have : b * (n + 1) * K = b * n * K + (ρ + δ) * K := by rw [hδ]; ring
      rw [this] at e2
      have : (ρ + δ) * K = ρ * K + δ * K := by ring
      rw [this] at e2
      omega
    have e4 : K ≤ δ * K := Nat.le_mul_of_pos_left K hδ1
    have hKr : K ≤ r := by omega
    have hb2 : 2 * K ≤ b := by omega
    have e5 : 2 ^ 53 * K ≤ a * K := by
      calc 2 ^ 53 * K = 2 ^ 52 * (2 * K) := by ring
        _ ≤ 2 ^ 52 * b := Nat.mul_le_mul_left _ hb2
        _ ≤ a * K := h5
    have ha : a = 2 ^ 53 := le_antisymm h6 (Nat.le_of_mul_le_mul_right e5 hK)
    have e6 : 2 ^ 52 * b ≤ 2 ^ 52 * (2 * K) := by
      calc 2 ^ 52 * b ≤ a * K := h5
        _ = 2 ^ 52 * (2 * K) := by rw [ha]; ring
    have hb3 : b = 2 * K := le_antisymm (Nat.le_of_mul_le_mul_left e6 (by positivity)) hb2
    have e7 : b * f + r = b * 2 ^ 52 := by
      rw [h1, ha, hb3]; ring
    have hdvd : b ∣ r := by
      have h : b ∣ b * f + r := by rw [e7]; exact Dvd.intro _ rfl
      exact (Nat.dvd_add_right (Dvd.intro _ rfl)).1 h
    have hr0 : r = 0 := Nat.eq_zero_of_dvd_of_lt hdvd hr
    omega

theorem frac_of_div (p b f r : ℕ) (hb : 0 < b) (h : b * f + r = p) :
    (p : ℚ) / (b : ℚ) - (((f : ℕ) : ℤ) : ℚ) = (r : ℚ) / (b : ℚ) := by
  have hbQ : (b : ℚ) ≠ 0 := by exact_mod_cast Nat.pos_iff_ne_zero.1 hb
  have : (p : ℚ) = (b : ℚ) * (f : ℚ) + (r : ℚ) := by exact_mod_cast h.symm
  rw [this, Int.cast_natCast]
  field_simp

theorem castToInt_of_nat_div (M K n : ℕ) (hK : 0 < K) (hM : M / K = n) (hn : n ≤ 2 ^ 31 - 1)
    (q : ℤ) (hq : (2 : ℚ) ^ q = 1 / (K : ℚ)) (x : ℚ) :
    (if (2 : ℚ) ^ (1024 : ℤ) ≤ |((M : ℤ) : ℚ) * (2 : ℚ) ^ q| then Double.infinity (decide (x < 0))
      else Double.finite (((M : ℤ) : ℚ) * (2 : ℚ) ^ q))
        = Double.finite ((M : ℚ) / (K : ℚ)) ∧
    castToInt (Double.finite ((M : ℚ) / (K : ℚ))) = some ((n : ℕ) : ℤ) := by
  have hKQ : (0 : ℚ) < (K : ℚ) := by exact_mod_cast hK
  have hv : ((M : ℤ) : ℚ) * (2 : ℚ) ^ q = (M : ℚ) / (K : ℚ) := by
    rw [hq]; push_cast; ring
  have hv0 : (0 : ℚ) ≤ (M : ℚ) / (K : ℚ) := by positivity
  have hfl : ⌊(M : ℚ) / (K : ℚ)⌋ = (n : ℤ) := by
    rw [Rat.floor_natCast_div_natCast, ← hM]
    norm_cast
  have hlt : (M : ℚ) / (K : ℚ) < (2 : ℚ) ^ (1024 : ℤ) := by
    have h1 : (M : ℚ) / (K : ℚ) < (⌊(M : ℚ) / (K : ℚ)⌋ : ℚ) + 1 := Int.lt_floor_add_one _
    rw [hfl] at h1
    have h2 : ((n : ℤ) : ℚ) + 1 ≤ (2 : ℚ) ^ (31 : ℤ) := by
      have : (n : ℚ) ≤ ((2 ^ 31 - 1 : ℕ) : ℚ) := by exact_mod_cast hn
      have e : ((2 ^ 31 - 1 : ℕ) : ℚ) = (2 : ℚ) ^ (31 : ℤ) - 1 := by norm_num
      rw [e] at this
      push_cast
      linarith
    have h3 : (2 : ℚ) ^ (31 : ℤ) < (2 : ℚ) ^ (1024 : ℤ) :=
      (zpow_lt_zpow_iff_right₀ (by norm_num)).2 (by norm_num)
    linarith
  constructor
  · rw [hv, abs_of_nonneg hv0, if_neg (not_le.mpr hlt)]
  · have r1 : (-2 ^ 31 : ℤ) ≤ (n : ℤ) := by
      have : (0 : ℤ) ≤ (n : ℤ) := Int.natCast_nonneg n
      omega
    have r2 : (n : ℤ) ≤ 2 ^ 31 - 1 := by omega
    simp only [castToInt, hv0, if_true, hfl, r1, r2, and_self]

/-- Dividing two integers of at most `2^53` and truncating gives the integer quotient,
when that fits an `int`. -/
theorem castToInt_round_div (a b : ℕ) (hb : 0 < b) (ha53 : a ≤ 2 ^ 53) (hb53 : b ≤ 2 ^ 53)
    (hq : a / b ≤ 2 ^ 31 - 1) :
    ∃ v, Double.round ((a : ℚ) / (b : ℚ)) = .finite v ∧
      castToInt (.finite v) = some ((a / b : ℕ) : ℤ) := by
  have hbQ : (0 : ℚ) < (b : ℚ) := by exact_mod_cast hb
  by_cases a0 : a = 0
  · subst a0
    refine ⟨0, by simpa using Double.round_zero, ?_⟩
    simp [castToInt]
  have haQ : (1 : ℚ) ≤ (a : ℚ) := by exact_mod_cast Nat.one_le_iff_ne_zero.2 a0
  set x : ℚ := (a : ℚ) / (b : ℚ) with hx
  have hxpos : 0 < x := by positivity
  obtain ⟨b1, b2⟩ := binade_spec x (ne_of_gt hxpos)
  rw [abs_of_pos hxpos] at b1 b2
  have two : (1 : ℚ) < 2 := by norm_num
  have two0 : (2 : ℚ) ≠ 0 := by norm_num
  have hxlt : x < (2 : ℚ) ^ (31 : ℤ) := by
    rw [hx, div_lt_iff₀ hbQ]
    have h : a < 2 ^ 31 * b := (Nat.div_lt_iff_lt_mul hb).1 (by omega)
    have e : (2 : ℚ) ^ (31 : ℤ) = ((2 ^ 31 : ℕ) : ℚ) := by norm_num
    rw [e]
    exact_mod_cast h
  have hxge : (2 : ℚ) ^ (-53 : ℤ) ≤ x := by
    rw [hx, le_div_iff₀ hbQ]
    have hbl : (b : ℚ) ≤ (2 : ℚ) ^ (53 : ℤ) := by
      have : (b : ℚ) ≤ ((2 ^ 53 : ℕ) : ℚ) := by exact_mod_cast hb53
      have e : ((2 ^ 53 : ℕ) : ℚ) = (2 : ℚ) ^ (53 : ℤ) := by norm_num
      rw [← e]; exact this
    calc (2 : ℚ) ^ (-53 : ℤ) * (b : ℚ) ≤ (2 : ℚ) ^ (-53 : ℤ) * (2 : ℚ) ^ (53 : ℤ) :=
          mul_le_mul_of_nonneg_left hbl (le_of_lt (zpow_pos (by norm_num) _))
      _ = 1 := by rw [← zpow_add₀ two0]; norm_num
      _ ≤ (a : ℚ) := haQ
  have e_le : binade x ≤ 30 := by
    have := (zpow_lt_zpow_iff_right₀ two).1 (lt_of_le_of_lt b1 hxlt)
    omega
  have e_ge : -53 ≤ binade x := by
    have := (zpow_lt_zpow_iff_right₀ two).1 (lt_of_le_of_lt hxge b2)
    omega
  obtain ⟨N, hN⟩ : ∃ N : ℕ, (N : ℤ) = 52 - binade x := ⟨(52 - binade x).toNat, by omega⟩
  have hquant : Double.quantum x = -(N : ℤ) := by
    simp only [Double.quantum]
    rw [max_eq_left (by omega)]
    omega
  have hKpos : 0 < 2 ^ N := by positivity
  have hpow : (2 : ℚ) ^ (-(N : ℤ)) = 1 / ((2 ^ N : ℕ) : ℚ) := by
    rw [zpow_neg, zpow_natCast]; push_cast; rw [one_div]
  have hy : x / (2 : ℚ) ^ (-(N : ℤ)) = ((a * 2 ^ N : ℕ) : ℚ) / (b : ℚ) := by
    rw [hpow, hx]; push_cast; field_simp
  have hfloor : ⌊((a * 2 ^ N : ℕ) : ℚ) / (b : ℚ)⌋ = ((a * 2 ^ N / b : ℕ) : ℤ) := by
    rw [Rat.floor_natCast_div_natCast]; norm_cast
  have hdm : b * (a * 2 ^ N / b) + a * 2 ^ N % b = a * 2 ^ N := Nat.div_add_mod _ _
  have hfK : a * 2 ^ N / b / 2 ^ N = a / b := by
    rw [Nat.div_div_eq_div_mul, Nat.mul_div_mul_right a b hKpos]
  have h5 : 2 ^ 52 * b ≤ a * 2 ^ N := by
    have h : (2 : ℚ) ^ binade x * (b : ℚ) ≤ (a : ℚ) := by
      rw [hx, le_div_iff₀ hbQ] at b1; exact b1
    have h' : (2 : ℚ) ^ binade x * (2 : ℚ) ^ (N : ℤ) * (b : ℚ) ≤ (a : ℚ) * (2 : ℚ) ^ (N : ℤ) := by
      have := mul_le_mul_of_nonneg_right h (le_of_lt (zpow_pos (by norm_num : (0 : ℚ) < 2) (N : ℤ)))
      linarith
    rw [← zpow_add₀ two0, show binade x + (N : ℤ) = 52 by omega, zpow_natCast] at h'
    have : ((2 ^ 52 * b : ℕ) : ℚ) ≤ ((a * 2 ^ N : ℕ) : ℚ) := by
      push_cast
      have e : (2 : ℚ) ^ (52 : ℤ) = (2 : ℚ) ^ (52 : ℕ) := by norm_num
      rw [e] at h'
      exact h'
    exact_mod_cast this
  -- the rounded mantissa, as a natural number whose quotient by `2^N` is `a / b`
  have hM : ∃ M : ℕ, roundHalfEven (x / (2 : ℚ) ^ (-(N : ℤ))) = (M : ℤ) ∧ M / 2 ^ N = a / b := by
    rw [hy]
    rcases roundHalfEven_cases (((a * 2 ^ N : ℕ) : ℚ) / (b : ℚ)) with h | ⟨h, hhalf⟩
    · exact ⟨a * 2 ^ N / b, by rw [h, hfloor], hfK⟩
    · refine ⟨a * 2 ^ N / b + 1, by rw [h, hfloor]; norm_cast, ?_⟩
      have hr : a * 2 ^ N % b < b := Nat.mod_lt _ hb
      have h4 : b ≤ 2 * (a * 2 ^ N % b) := by
        rw [hfloor] at hhalf
        rw [frac_of_div _ b _ _ hb hdm, le_div_iff₀ hbQ] at hhalf
        have : ((b : ℕ) : ℚ) ≤ ((2 * (a * 2 ^ N % b) : ℕ) : ℚ) := by
          push_cast; linarith
        exact_mod_cast this
      exact round_up_stays a b (2 ^ N) (a * 2 ^ N / b) (a * 2 ^ N % b) (a / b) hKpos hb hdm hr
        hfK rfl h4 h5 ha53
  obtain ⟨M, hM1, hM2⟩ := hM
  obtain ⟨c1, c2⟩ := castToInt_of_nat_div M (2 ^ N) (a / b) hKpos hM2 hq (-(N : ℤ)) hpow x
  refine ⟨(M : ℚ) / ((2 ^ N : ℕ) : ℚ), ?_, c2⟩
  simp only [Double.round, hquant, hM1]
  exact c1

/-! ## Results about `parseUserInput` -/

theorem to_string_int_zero : to_string_int ((0 : Nat) : Int) = "0".toList := by decide
theorem to_string_int_one : to_string_int ((0 + 1 : Nat) : Int) = "1".toList := by decide
theorem to_string_int_two : to_string_int ((0 + 1 + 1 : Nat) : Int) = "2".toList := by decide

theorem emplace_key_one (c a : Str) :
    StrMap.emplace "1".toList a [("0".toList, c)] = [("0".toList, c), ("1".toList, a)] := by
  have h1 : ¬ ("1".toList = "0".toList) := by decide
  have h2 : ¬ ("1".toList < "0".toList) := by decide
  simp only [StrMap.emplace, h1, h2, if_false]

theorem emplace_key_two (c a b : Str) :
    StrMap.emplace "2".toList b [("0".toList, c), ("1".toList, a)]
      = [("0".toList, c), ("1".toList, a), ("2".toList, b)] := by
  have h1 : ¬ ("2".toList = "0".toList) := by decide
  have h2 : ¬ ("2".toList < "0".toList) := by decide
  have h3 : ¬ ("2".toList = "1".toList) := by decide
  have h4 : ¬ ("2".toList < "1".toList) := by decide
  simp only [StrMap.emplace, h1, h2, h3, h4, if_false]

/-- Three tokens that pass validation are stored under the keys `0`, `1`, `2`. -/
theorem parseTokens_three (c a b : Str) (hc : isAValidCommand c = true) (hcne : c ≠ [])
    (ha : isAValidNumber a = true) (hane : a ≠ []) (hb : isAValidNumber b = true)
    (hbne : b ≠ []) :
    parseTokens [c, a, b] 0 [] []
      = ⟨[("0".toList, c), ("1".toList, a), ("2".toList, b)], []⟩ := by
  have v0 : validateAndReturnParsedInput c 0 = c := by
    simp [validateAndReturnParsedInput, hc]
  have v1 : validateAndReturnParsedInput a (0 + 1) = a := by
    simp [validateAndReturnParsedInput, ha]
  have v2 : validateAndReturnParsedInput b (0 + 1 + 1) = b := by
    simp [validateAndReturnParsedInput, hb]
  have g0 : ¬ (0 > 3) := by decide
  have g1 : ¬ (0 + 1 > 3) := by decide
  have g2 : ¬ (0 + 1 + 1 > 3) := by decide
  have n1 : ([a, b] : List Str) ≠ [] := by simp
  have n2 : ([b] : List Str) ≠ [] := by simp
  simp only [parseTokens, v0, v1, v2, g0, g1, g2, if_false, if_true, ne_eq, hcne, hane, hbne,
    not_false_eq_true, n1, n2, not_true_eq_false, to_string_int_zero, to_string_int_one,
    to_string_int_two]
  rw [show StrMap.emplace "0".toList c [] = [("0".toList, c)] from rfl, emplace_key_one,
    emplace_key_two]

/-- The first token that fails validation, at a position the loop validates, ends the
parse with the invalid-input message and the empty map. -/
theorem parseTokens_first_invalid (tok : Str) :
    ∀ (k : Nat) (ts : List Str) (i : Nat) (m : StrMap) (out : Str),
      i + k ≤ 3 → ts.get? k = some tok →
      (∀ j t, j < k → ts.get? j = some t → validateAndReturnParsedInput t (i + j) ≠ []) →
      validateAndReturnParsedInput tok (i + k) = [] →
      parseTokens ts i m out = ⟨[], out ++ showErrorMessage tok INVALID_INPUT⟩ := by
  intro k
  induction k with
  | zero =>
    intro ts i m out hik htok _ hbad
    cases ts with
    | nil => simp at htok
    | cons t rest =>
      simp only [List.get?_cons_zero, Option.some.injEq] at htok
      subst htok
      have hi : ¬ (i > 3) := by omega
      simp only [Nat.add_zero] at hbad
      simp only [parseTokens, hi, if_false, hbad, ne_eq, not_true_eq_false]
  | succ k ih =>
    intro ts i m out hik htok hprev hbad
    cases ts with
    | nil => simp at htok
    | cons t rest =>
      simp only [List.get?_cons_succ] at htok
      have hi : ¬ (i > 3) := by omega
      have hv : validateAndReturnParsedInput t i ≠ [] := by
        have := hprev 0 t (Nat.succ_pos k) (by simp)
        simpa using this
      have hrest : rest ≠ [] := by
        intro h; subst h; simp at htok
      simp only [parseTokens, hi, if_false, hv, ne_eq, not_false_eq_true, if_true, hrest]
      apply ih rest (i + 1) _ out (by omega) htok
      · intro j t' hj hget
        have := hprev (j + 1) t' (by omega) (by simpa using hget)
        rwa [show i + 1 + j = i + (j + 1) by omega]
      · rwa [show i + 1 + k = i + (k + 1) by omega]

theorem isAValidNumberLoop_bad_char :
    ∀ (cs : Str) (k : Nat), (∃ ch ∈ cs, ch.isDigit = false ∧ ch ≠ '.') →
      isAValidNumberLoop cs k = false := by
  intro cs
  induction cs with
  | nil => intro k h; simp at h
  | cons c rest ih =>
    intro k h
    obtain ⟨ch, hm, hd, hp⟩ := h
    by_cases hc : c = '.'
    · have hrest : ∃ ch ∈ rest, ch.isDigit = false ∧ ch ≠ '.' := by
        rcases List.mem_cons.1 hm with rfl | hm'
        · exact absurd hc hp
        · exact ⟨ch, hm', hd, hp⟩
      simp only [isAValidNumberLoop, hc, if_true]
      split
      · rfl
      · exact ih _ hrest
    · simp only [isAValidNumberLoop, hc, if_false, isnumber]
      by_cases hcd : c.isDigit = true
      · have hrest : ∃ ch ∈ rest, ch.isDigit = false ∧ ch ≠ '.' := by
          rcases List.mem_cons.1 hm with rfl | hm'
          · rw [hcd] at hd; cases hd
          · exact ⟨ch, hm', hd, hp⟩
        simp only [hcd, Bool.not_true, Bool.false_eq_true, if_false]
        exact ih _ hrest
      · simp [hcd]

/-- The two kinds of token named by the specification are rejected by the validator:
an unrecognised keyword at position 0, and a token with a character that is neither a
digit nor `'.'` at a later position. -/
theorem validateAndReturnParsedInput_rejects (t : Str) (k : Nat)
    (h : (k = 0 ∧ isAValidCommand t = false) ∨
      (k ≠ 0 ∧ ∃ ch ∈ t, ch.isDigit = false ∧ ch ≠ '.')) :
    validateAndReturnParsedInput t k = [] := by
  rcases h with ⟨rfl, h⟩ | ⟨hk, h⟩
  · simp [validateAndReturnParsedInput, h]
  · simp [validateAndReturnParsedInput, hk, isAValidNumber, isAValidNumberLoop_bad_char t 0 h]

/-- A re-casing of a command keyword upper-cases to that keyword, is accepted as a
command, is not empty and holds no space. -/
theorem isRecasingOf_keyword (c keyword : Str) (hkw : keyword ∈ VALID_COMMANDS)
    (hc : isRecasingOf c keyword = true) :
    stringToUpperCase c = keyword ∧ isAValidCommand c = true ∧ c ≠ [] ∧ ' ' ∉ c := by
  have hk : keyword.all isKeywordLetter = true ∧ 0 < keyword.length := by
    simp only [VALID_COMMANDS, List.mem_cons, List.mem_singleton, List.not_mem_nil,
      or_false] at hkw
    rcases hkw with rfl | rfl | rfl | rfl | rfl <;> decide
  obtain ⟨hu, hcsp, hlen⟩ := isRecasingOf_spec keyword hk.1 c hc
  refine ⟨hu, ?_, ?_, hcsp⟩
  · apply (isAValidCommand_iff c).2
    rw [hu]
    simpa [VALID_COMMANDS] using hkw
  · intro h
    rw [h] at hlen
    have := hk.2
    simp at hlen
    omega

/-- A line made of an accepted keyword and two operand tokens parses to the three-entry
map, and nothing is printed. -/
theorem parseUserInput_commandLine (c a b : Str) (hcv : isAValidCommand c = true)
    (hcne : c ≠ []) (hcsp : ' ' ∉ c)
    (ha : isOperandToken a = true) (hb : isOperandToken b = true) :
    parseUserInput (commandLine c a b) = some ⟨commandMap c a b, []⟩ := by
  obtain ⟨hane, hasp, hav⟩ := isOperandToken_spec a ha
  obtain ⟨hbne, hbsp, hbv⟩ := isOperandToken_spec b hb
  have hline : commandLine c a b = c ++ ' ' :: (a ++ ' ' :: b) := by
    simp [commandLine]
  rw [parseUserInput_eq_parseTokens, hline, tokens_append_space _ _ hcsp,
    tokens_append_space _ _ hasp, tokens_of_no_space _ hbsp,
    parseTokens_three c a b hcv hcne hav hane hbv hbne]
  rfl

theorem isOperandToken_of_isDigitToken (a : Str) (ha : isDigitToken a = true) :
    isOperandToken a = true := by
  obtain ⟨hne, hall⟩ := isDigitToken_spec a ha
  have hcount : a.count '.' = 0 := by
    apply List.count_eq_zero.2
    intro hmem
    exact absurd (hall _ hmem) (by decide)
  simp only [isOperandToken, Bool.and_eq_true, Bool.not_eq_true', List.isEmpty_eq_false,
    List.all_eq_true, Bool.or_eq_true, beq_iff_eq, decide_eq_true_eq, hcount]
  exact ⟨⟨by simpa using hne, fun ch hm => Or.inl (hall ch hm)⟩, by omega⟩

/-- On integer operands, addition, subtraction and multiplication are exact as long as
the result has magnitude at most `2^53`. -/
theorem performOperation_exact (c keyword : Str) (hu : stringToUpperCase c = keyword)
    (hkw : keyword = ADD ∨ keyword = SUBTRACT ∨ keyword = MULTIPLY) (x y : ℤ)
    (hr : |exactResult keyword x y| ≤ 2 ^ 53) :
    performOperation c (.finite (x : ℚ)) (.finite (y : ℚ))
      = .finite ((exactResult keyword x y : ℤ) : ℚ) := by
  have n1 : SUBTRACT ≠ ADD := by decide
  have n2 : MULTIPLY ≠ ADD := by decide
  have n3 : MULTIPLY ≠ SUBTRACT := by decide
  simp only [performOperation, hu]
  rcases hkw with rfl | rfl | rfl
  · simp only [exactResult, if_true] at hr ⊢
    simp only [addNumbers]
    rw [← Int.cast_add]
    exact Double.round_intCast _ hr
  · simp only [exactResult, n1, if_false, if_true] at hr ⊢
    simp only [subtractNumbers]
    rw [← Int.cast_sub]
    exact Double.round_intCast _ hr
  · simp only [exactResult, n2, n3, if_false, if_true] at hr ⊢
    simp only [multiplyNumbers]
    rw [← Int.cast_mul]
    exact Double.round_intCast _ hr

/-! ## The two renderings -/

theorem digitChar_isDigit (d : Nat) (h : d < 10) : (Nat.digitChar d).isDigit = true := by
  interval_cases d <;> decide

theorem toDigitsCore_isDigit (f : Nat) :
    ∀ (n : Nat) (ds : List Char), (∀ ch ∈ ds, ch.isDigit = true) →
      ∀ ch ∈ Nat.toDigitsCore 10 f n ds, ch.isDigit = true := by
  induction f with
  | zero => intro n ds h ch hm; exact h ch (by simpa [Nat.toDigitsCore] using hm)
  | succ f ih =>
    intro n ds h ch hm
    have hd : ∀ c ∈ Nat.digitChar (n % 10) :: ds, c.isDigit = true := by
      intro c hc
      rcases List.mem_cons.1 hc with rfl | hc
      · exact digitChar_isDigit _ (Nat.mod_lt _ (by norm_num))
      · exact h c hc
    simp only [Nat.toDigitsCore] at hm
    split at hm
    · exact hd ch hm
    · exact ih _ _ hd ch hm

theorem toDigitsCore_ne_nil (f : Nat) :
    ∀ (n : Nat) (ds : List Char), ds ≠ [] → Nat.toDigitsCore 10 f n ds ≠ [] := by
  induction f with
  | zero => intro n ds h; simpa [Nat.toDigitsCore] using h
  | succ f ih =>
    intro n ds _
    simp only [Nat.toDigitsCore]
    split
    · simp
    · exact ih _ _ (by simp)

theorem toDigits_isDigit (n : Nat) : ∀ ch ∈ Nat.toDigits 10 n, ch.isDigit = true :=
  toDigitsCore_isDigit _ _ _ (by simp)

theorem toDigits_ne_nil (n : Nat) : Nat.toDigits 10 n ≠ [] := by
  simp only [Nat.toDigits, Nat.toDigitsCore]
  split
  · simp
  · exact toDigitsCore_ne_nil _ _ _ (by simp)

theorem stripSign_of_digits (D rest : Str) (hD : D ≠ []) (hDd : ∀ ch ∈ D, ch.isDigit = true) :
    stripSign (D ++ rest) = D ++ rest := by
  cases D with
  | nil => exact absurd rfl hD
  | cons d D' =>
    have hd : d ≠ '-' := by
      intro h
      have := hDd d (List.mem_cons_self _ _)
      rw [h] at this
      exact absurd this (by decide)
    simp [stripSign, hd]

theorem stripSign_minus (s : Str) : stripSign ('-' :: s) = s := by
  simp [stripSign]

theorem span_digits_point (D rest : Str) (hDd : ∀ ch ∈ D, ch.isDigit = true) :
    (D ++ '.' :: rest).takeWhile Char.isDigit = D ∧
      (D ++ '.' :: rest).dropWhile Char.isDigit = '.' :: rest := by
  induction D with
  | nil =>
    have h : Char.isDigit '.' = false := by decide
    simp [List.takeWhile, List.dropWhile, h]
  | cons d D' ih =>
    have hd := hDd d (List.mem_cons_self _ _)
    obtain ⟨i1, i2⟩ := ih (fun ch hm => hDd ch (List.mem_cons_of_mem _ hm))
    simp only [List.cons_append, List.takeWhile, List.dropWhile, hd]
    exact ⟨congrArg (List.cons d) i1, i2⟩

theorem isIntegerNotation_of_body (s : Str) (hne : stripSign s ≠ [])
    (hd : ∀ ch ∈ stripSign s, ch.isDigit = true) :
    isIntegerNotation s = true ∧ isFixedNotation s = false := by
  constructor
  · simp only [isIntegerNotation, Bool.and_eq_true, Bool.not_eq_true', List.isEmpty_eq_false,
      List.all_eq_true]
    exact ⟨by simpa using hne, hd⟩
  · have : (stripSign s).dropWhile Char.isDigit = [] := List.dropWhile_eq_nil_iff.2 hd
    simp only [isFixedNotation, this]

theorem isFixedNotation_of_body (s D P : Str) (hs : stripSign s = D ++ '.' :: P) (hD : D ≠ [])
    (hDd : ∀ ch ∈ D, ch.isDigit = true) (hP : P.length = 6)
    (hPd : ∀ ch ∈ P, ch.isDigit = true) :
    isFixedNotation s = true ∧ isIntegerNotation s = false := by
  obtain ⟨t1, t2⟩ := span_digits_point D P hDd
  constructor
  · simp only [isFixedNotation, hs, t1, t2, Bool.and_eq_true, Bool.not_eq_true',
      List.isEmpty_eq_false, beq_iff_eq, List.all_eq_true]
    exact ⟨⟨by simpa using hD, hP⟩, hPd⟩
  · have hpt : Char.isDigit '.' = false := by decide
    have : (stripSign s).all Char.isDigit = false := by
      rw [hs]
      apply List.all_eq_false.2
      exact ⟨'.', by simp, by simp [hpt]⟩
    simp only [isIntegerNotation, this, Bool.and_false]

/-- The rendering of an `int` is in integer form. -/
theorem to_string_int_form (i : ℤ) :
    isIntegerNotation (to_string_int i) = true ∧ isFixedNotation (to_string_int i) = false := by
  have hne := toDigits_ne_nil i.natAbs
  have hd := toDigits_isDigit i.natAbs
  apply isIntegerNotation_of_body
  · unfold to_string_int
    split
    · rw [stripSign_minus]; exact hne
    · have := stripSign_of_digits _ [] hne hd
      rw [List.append_nil] at this
      rw [this]; exact hne
  · unfold to_string_int
    split
    · rw [stripSign_minus]; exact hd
    · have := stripSign_of_digits _ [] hne hd
      rw [List.append_nil] at this
      rw [this]; exact hd

/-- The rendering of a finite `double` is in fixed notation. -/
theorem to_string_double_form (v : ℚ) :
    isFixedNotation (to_string_double (.finite v)) = true ∧
      isIntegerNotation (to_string_double (.finite v)) = false := by
  set scaled : Nat := (roundHalfEven (|v| * 10 ^ 6)).toNat with hscaled
  have hDne := toDigits_ne_nil (scaled / 10 ^ 6)
  have hDd := toDigits_isDigit (scaled / 10 ^ 6)
  have hlen6 : (Nat.toDigits 10 (scaled % 10 ^ 6)).length ≤ 6 :=
    Nat.toDigitsCore_length 10 (by norm_num) _ _ 6
      (Nat.mod_lt _ (by norm_num)) (by norm_num)
  have hP : (List.leftpad 6 '0' (Nat.toDigits 10 (scaled % 10 ^ 6))).length = 6 := by
    rw [List.leftpad_length]; omega
  have hPd : ∀ ch ∈ List.leftpad 6 '0' (Nat.toDigits 10 (scaled % 10 ^ 6)),
      ch.isDigit = true := by
    intro ch hm
    simp only [List.leftpad, List.mem_append, List.mem_replicate] at hm
    rcases hm with ⟨_, rfl⟩ | hm
    · decide
    · exact toDigits_isDigit _ ch hm
  apply isFixedNotation_of_body _ (Nat.toDigits 10 (scaled / 10 ^ 6))
    (List.leftpad 6 '0' (Nat.toDigits 10 (scaled % 10 ^ 6))) _ hDne hDd hP hPd
  simp only [to_string_double, ← hscaled]
  split
  · simp only [List.append_assoc, List.singleton_append]
    exact stripSign_minus _
  · simp only [List.nil_append, List.append_assoc, List.singleton_append]
    exact stripSign_of_digits _ _ hDne hDd

/-! ## Lookups in the command map -/

theorem find_emplace_of_missing (k v : Str) :
    ∀ (m : StrMap) (k' : Str), StrMap.find k m = none →
      StrMap.find k' (StrMap.emplace k v m) = if k' = k then some v else StrMap.find k' m := by
  intro m
  induction m with
  | nil => intro k' _; simp [StrMap.emplace, StrMap.find]
  | cons p rest ih =>
    obtain ⟨k0, v0⟩ := p
    intro k' hmiss
    have hk0 : k ≠ k0 := by
      intro h
      simp [StrMap.find, h] at hmiss
    have hrest : StrMap.find k rest = none := by
      simpa [StrMap.find, hk0] using hmiss
    simp only [StrMap.emplace, hk0, if_false]
    split
    · simp only [StrMap.find]
    · simp only [StrMap.find, ih k' hrest]
      by_cases h1 : k' = k0
      · have h2 : k' ≠ k := fun h => hk0 (h ▸ h1)
        simp [h1, h2, Ne.symm hk0]
      · simp [h1]

theorem index_fst (m : StrMap) (k : Str) : (StrMap.index m k).1 = valueAt m k := by
  unfold StrMap.index valueAt
  cases StrMap.find k m <;> rfl

theorem valueAt_index (m : StrMap) (k k' : Str) :
    valueAt (StrMap.index m k).2 k' = valueAt m k' := by
  unfold StrMap.index
  cases h : StrMap.find k m with
  | some v => rfl
  | none =>
    simp only [valueAt, find_emplace_of_missing k [] m k' h]
    by_cases hk : k' = k
    · simp [hk, h]
    · simp [hk]

/-- The result of `getResult` depends on the map only through the three values that
`command["0"]`, `command["1"]`, `command["2"]` read. -/
theorem getResult_eq_values (m : StrMap) :
    getResult m
      = getResult (commandMap (valueAt m "0".toList) (valueAt m "1".toList)
          (valueAt m "2".toList)) := by
  rw [getResult_commandMap]
  unfold getResult
  have e1 : StrMap.index m "1".toList
      = (valueAt m "1".toList, (StrMap.index m "1".toList).2) := by
    rw [← index_fst]
  rw [e1]
  simp only
  cases hA : isAFloatingPointNumber (valueAt m "1".toList)
  · simp only [Bool.false_eq_true, if_false, index_fst, valueAt_index, Bool.false_or]
  · simp only [if_true, index_fst, valueAt_index, Bool.true_or]

/-! ## Re-casings -/

theorem isRecasingOf_upper (k : Str) (hk : k.all isCaseLetter = true) :
    ∀ c : Str, isRecasingOf c k = true →
      stringToUpperCase c = stringToUpperCase k ∧ ' ' ∉ c ∧ c.length = k.length := by
  induction k with
  | nil =>
    intro c hc
    cases c with
    | nil => simp [stringToUpperCase]
    | cons x xs => simp [isRecasingOf] at hc
  | cons y ys ih =>
    intro c hc
    cases c with
    | nil => simp [isRecasingOf] at hc
    | cons x xs =>
      simp only [isRecasingOf, Bool.and_eq_true, Bool.or_eq_true, beq_iff_eq] at hc
      simp only [List.all_cons, Bool.and_eq_true] at hk
      obtain ⟨hy, hys⟩ := hk
      obtain ⟨h1, h2, h3⟩ := ih hys xs hc.2
      simp only [isCaseLetter, Bool.and_eq_true, beq_iff_eq, bne_iff_ne, ne_eq] at hy
      obtain ⟨⟨⟨⟨a2, a3⟩, a4⟩, a5⟩, a6⟩ := hy
      refine ⟨?_, ?_, by simp [h3]⟩
      · simp only [stringToUpperCase, h1, List.cons.injEq, and_true]
        rcases hc.1 with (rfl | rfl) | rfl
        · rfl
        · exact a2
        · exact a3
      · simp only [List.mem_cons, not_or]
        refine ⟨?_, h2⟩
        rcases hc.1 with (rfl | rfl) | rfl
        · exact fun h => a4 h.symm
        · exact fun h => a5 h.symm
        · exact fun h => a6 h.symm

/-- A re-casing of a lower-case command word is accepted as a command, upper-cases to
the same keyword, is not empty and holds no space. -/
theorem isRecasingOf_word (c k : Str)
    (hk : k = "add".toList ∨ k = "subtract".toList ∨ k = "multiply".toList ∨
      k = "divide".toList ∨ k = "quit".toList)
    (hc : isRecasingOf c k = true) :
    stringToUpperCase c = stringToUpperCase k ∧ isAValidCommand c = true ∧ c ≠ [] ∧
      ' ' ∉ c ∧ isAValidCommand k = true ∧ k ≠ [] ∧ ' ' ∉ k := by
  have hall : k.all isCaseLetter = true ∧ 0 < k.length ∧ isAValidCommand k = true ∧
      k ≠ [] ∧ ' ' ∉ k := by
    rcases hk with rfl | rfl | rfl | rfl | rfl <;> decide
  obtain ⟨hu, hcsp, hlen⟩ := isRecasingOf_upper k hall.1 c hc
  have hkv := (isAValidCommand_iff k).1 hall.2.2.1
  refine ⟨hu, ?_, ?_, hcsp, hall.2.2.1, hall.2.2.2.1, hall.2.2.2.2⟩
  · apply (isAValidCommand_iff c).2
    rw [hu]; exact hkv
  · intro h
    rw [h] at hlen
    have := hall.2.1
    simp at hlen
    omega

/-! ## The keyword entry of a parse result -/

theorem emplace_after_zero (i : Nat) (h1 : 1 ≤ i) (h3 : i ≤ 3) (k v : Str) (p : StrMap) :
    StrMap.emplace (to_string_int i) v (("0".toList, k) :: p)
      = ("0".toList, k) :: StrMap.emplace (to_string_int i) v p := by
  have hkey : to_string_int (i : ℤ) ≠ "0".toList ∧ ¬ (to_string_int (i : ℤ) < "0".toList) := by
    interval_cases i <;> decide
  simp only [StrMap.emplace, hkey.1, hkey.2, if_false]

/-- From position 1 on, the loop treats two maps that differ in the value stored under
`0` alike: same text printed, and the results are both empty or differ in that value
only. -/
theorem parseTokens_keyword_swap (k k' : Str) :
    ∀ (ts : List Str) (i : Nat) (p : StrMap) (out : Str), 1 ≤ i →
      (∃ o, parseTokens ts i (("0".toList, k) :: p) out = ⟨[], o⟩ ∧
        parseTokens ts i (("0".toList, k') :: p) out = ⟨[], o⟩) ∨
      (∃ q o, parseTokens ts i (("0".toList, k) :: p) out = ⟨("0".toList, k) :: q, o⟩ ∧
        parseTokens ts i (("0".toList, k') :: p) out = ⟨("0".toList, k') :: q, o⟩) := by
  intro ts
  induction ts with
  | nil => intro i p out _; right; exact ⟨p, out, rfl, rfl⟩
  | cons w rest ih =>
    intro i p out hi
    by_cases hgt : i > 3
    · right
      exact ⟨p, out ++ showErrorMessage w EXTRANEOUS_INPUT, by simp [parseTokens, hgt],
        by simp [parseTokens, hgt]⟩
    · have h3 : i ≤ 3 := by omega
      by_cases hv : validateAndReturnParsedInput w i = []
      · left
        exact ⟨out ++ showErrorMessage w INVALID_INPUT, by simp [parseTokens, hgt, hv],
          by simp [parseTokens, hgt, hv]⟩
      · by_cases hr : rest = []
        · right
          refine ⟨StrMap.emplace (to_string_int i) (validateAndReturnParsedInput w i) p, out,
            ?_, ?_⟩
          · simp only [parseTokens, hgt, if_false, ne_eq, hv, not_false_eq_true, if_true, hr,
              emplace_after_zero i hi h3]
          · simp only [parseTokens, hgt, if_false, ne_eq, hv, not_false_eq_true, if_true, hr,
              emplace_after_zero i hi h3]
        · have := ih (i + 1)
            (StrMap.emplace (to_string_int i) (validateAndReturnParsedInput w i) p) out
            (by omega)
          simp only [parseTokens, hgt, if_false, ne_eq, hv, not_false_eq_true, if_true, hr,
            emplace_after_zero i hi h3]
          exact this

/-- A line that starts with an accepted command word and a space is parsed like the rest
of the line from position 1, with the word stored under `0`. -/
theorem parseUserInput_keyword_line (k rest : Str) (hkv : isAValidCommand k = true)
    (hkne : k ≠ []) (hksp : ' ' ∉ k) :
    parseUserInput (k ++ ' ' :: rest)
      = some (parseTokens (tokens rest) 1 [("0".toList, k)] []) := by
  have v0 : validateAndReturnParsedInput k 0 = k := by
    simp [validateAndReturnParsedInput, hkv]
  have g0 : ¬ (0 > 3) := by decide
  rw [parseUserInput_eq_parseTokens, tokens_append_space _ _ hksp]
  simp only [parseTokens, g0, if_false, v0, ne_eq, hkne, not_false_eq_true, if_true,
    tokens_ne_nil, to_string_int_zero]
  rfl

theorem performOperation_congr (c c' : Str) (h : stringToUpperCase c = stringToUpperCase c')
    (x y : Double) : performOperation c x y = performOperation c' x y := by
  simp only [performOperation, h]

theorem valueAt_cons_zero (k : Str) (q : StrMap) :
    valueAt (("0".toList, k) :: q) "0".toList = k ∧
    valueAt (("0".toList, k) :: q) "1".toList = valueAt q "1".toList ∧
    valueAt (("0".toList, k) :: q) "2".toList = valueAt q "2".toList := by
  have k10 : ¬ ("1".toList = "0".toList) := by decide
  have k20 : ¬ ("2".toList = "0".toList) := by decide
  refine ⟨?_, ?_, ?_⟩
  · simp [valueAt, StrMap.find]
  · simp only [valueAt, StrMap.find, k10, if_false]
  · simp only [valueAt, StrMap.find, k20, if_false]

/-- Two maps that differ only in the case of the command word give the same result. -/
theorem getResult_keyword_swap (k k' : Str) (q : StrMap)
    (h : stringToUpperCase k' = stringToUpperCase k) :
    getResult (("0".toList, k') :: q) = getResult (("0".toList, k) :: q) := by
  obtain ⟨a0, a1, a2⟩ := valueAt_cons_zero k q
  obtain ⟨b0, b1, b2⟩ := valueAt_cons_zero k' q
  rw [getResult_eq_values (("0".toList, k') :: q), getResult_eq_values (("0".toList, k) :: q),
    a0, a1, a2, b0, b1, b2, getResult_commandMap, getResult_commandMap]
  simp only [performOperation_congr k' k h]

/-! ## Termination of the parsing loop -/

/-- Five iterations are enough for the loop, whatever the line: the position guard
leaves it at position 4 at the latest. -/
theorem parseLoop_eq_parseTokens_of_count (fuel : Nat) :
    ∀ (buf : Str) (inputCount : Nat) (parsed : StrMap) (out : Str),
      4 - inputCount < fuel →
      parseLoop fuel ⟨buf, false, false⟩ inputCount parsed out
        = some (parseTokens (tokens buf) inputCount parsed out) := by
  induction fuel with
  | zero => intro buf _ _ _ h; omega
  | succ fuel ih =>
    intro buf inputCount parsed out hfuel
    rcases getlineScan_tokens buf with ⟨h1, h2⟩ | ⟨h1, h2, _⟩
    · rw [h2]
      simp only [parseLoop, getline, Bool.or_self, Bool.false_eq_true, if_false, parseTokens,
        IStringStream.eof, h1, if_true]
      split
      · rfl
      · split <;> rfl
    · rw [h2]
      have hne := tokens_ne_nil (getlineScan ' ' buf).2.1
      simp only [parseLoop, getline, Bool.or_self, Bool.false_eq_true, if_false, parseTokens,
        IStringStream.eof, h1, hne, Bool.false_and]
      split
      · rfl
      · rename_i hgt
        split
        · exact ih _ _ _ _ (by omega)
        · rfl

theorem emplace_next_key (i : Nat) (h3 : i ≤ 3) (v : Str) (m : StrMap)
    (hkeys : m.map Prod.fst = (List.range i).map (fun j : Nat => to_string_int j)) :
    (StrMap.emplace (to_string_int i) v m).map Prod.fst
      = (List.range (i + 1)).map (fun j : Nat => to_string_int j) := by
  have e0 : to_string_int (0 : ℤ) = ['0'] := by decide
  have e1 : to_string_int (1 : ℤ) = ['1'] := by decide
  have e2 : to_string_int (2 : ℤ) = ['2'] := by decide
  have e3 : to_string_int (3 : ℤ) = ['3'] := by decide
  have n10 : ¬ (['1'] < ['0']) := by decide
  have n20 : ¬ (['2'] < ['0']) := by decide
  have n21 : ¬ (['2'] < ['1']) := by decide
  have n30 : ¬ (['3'] < ['0']) := by decide
  have n31 : ¬ (['3'] < ['1']) := by decide
  have n32 : ¬ (['3'] < ['2']) := by decide
  interval_cases i
  · match m, hkeys with
    | [], _ => simp [StrMap.emplace, List.range, List.range.loop]
  · match m, hkeys with
    | [(k0, v0)], h =>
      simp only [List.range, List.range.loop, List.map, Nat.cast_zero, e0, List.cons.injEq,
        and_true] at h
      subst h
      simp [StrMap.emplace, List.range, List.range.loop, e0, e1, n10]
  · match m, hkeys with
    | [(k0, v0), (k1, v1)], h =>
      simp only [List.range, List.range.loop, List.map, Nat.cast_zero, Nat.cast_one, e0, e1,
        List.cons.injEq, and_true] at h
      obtain ⟨h0, h1⟩ := h
      subst h0 h1
      simp [StrMap.emplace, List.range, List.range.loop, e0, e1, e2, n20, n21]
  · match m, hkeys with
    | [(k0, v0), (k1, v1), (k2, v2)], h =>
      simp only [List.range, List.range.loop, List.map, Nat.cast_zero, Nat.cast_one,
        Nat.cast_ofNat, e0, e1, e2, List.cons.injEq, and_true] at h
      obtain ⟨h0, h1, h2⟩ := h
      subst h0 h1 h2
      simp [StrMap.emplace, List.range, List.range.loop, e0, e1, e2, e3, n30, n31, n32]

/-- The keys of a parse result are the consecutive positions from 0, four at most. -/
theorem parseTokens_keys :
    ∀ (ts : List Str) (i : Nat) (m : StrMap) (out : Str), i ≤ 4 →
      m.map Prod.fst = (List.range i).map (fun j : Nat => to_string_int j) →
      ∃ n, n ≤ 4 ∧ (parseTokens ts i m out).parsed.map Prod.fst
        = (List.range n).map (fun j : Nat => to_string_int j) := by
  intro ts
  induction ts with
  | nil => intro i m out hi hk; exact ⟨i, hi, hk⟩
  | cons w rest ih =>
    intro i m out hi hk
    by_cases hgt : i > 3
    · exact ⟨i, hi, by simpa [parseTokens, hgt] using hk⟩
    · have h3 : i ≤ 3 := by omega
      by_cases hv : validateAndReturnParsedInput w i = []
      · exact ⟨0, by omega, by simp [parseTokens, hgt, hv]⟩
      · have hnext := emplace_next_key i h3 (validateAndReturnParsedInput w i) m hk
        by_cases hr : rest = []
        · refine ⟨i + 1, by omega, ?_⟩
          simp only [parseTokens, hgt, if_false, ne_eq, hv, not_false_eq_true, if_true, hr]
          exact hnext
        · have := ih (i + 1) _ out (by omega) hnext
          simp only [parseTokens, hgt, if_false, ne_eq, hv, not_false_eq_true, if_true, hr]
          exact this

/-- A token rejected at one of the positions 0 to 3 ends the parse with the
invalid-input message (for that token or an earlier rejected one) and the empty map. -/
theorem parseTokens_some_invalid :
    ∀ (k : Nat) (ts : List Str) (i : Nat) (m : StrMap) (out : Str),
      i + k ≤ 3 → (∃ t, ts.get? k = some t ∧ validateAndReturnParsedInput t (i + k) = []) →
      ∃ tok, parseTokens ts i m out = ⟨[], out ++ showErrorMessage tok INVALID_INPUT⟩ := by
  intro k
  induction k with
  | zero =>
    intro ts i m out hik h
    obtain ⟨t, ht, hbad⟩ := h
    exact ⟨t, parseTokens_first_invalid t 0 ts i m out hik ht (by intro j t' hj; omega) hbad⟩
  | succ k ih =>
    intro ts i m out hik h
    obtain ⟨t, ht, hbad⟩ := h
    cases ts with
    | nil => simp at ht
    | cons w rest =>
      simp only [List.get?_cons_succ] at ht
      have hi : ¬ (i > 3) := by omega
      by_cases hv : validateAndReturnParsedInput w i = []
      · exact ⟨w, by simp [parseTokens, hi, hv]⟩
      · have hrest : rest ≠ [] := by
          intro h; subst h; simp at ht
        obtain ⟨tok, htok⟩ := ih rest (i + 1) (StrMap.emplace (to_string_int i)
          (validateAndReturnParsedInput w i) m) out (by omega)
          ⟨t, ht, by rwa [show i + 1 + k = i + (k + 1) by omega]⟩
        refine ⟨tok, ?_⟩
        simp only [parseTokens, hi, if_false, ne_eq, hv, not_false_eq_true, if_true, hrest]
        exact htok

/-! ## One pass through the loop of `main` -/

theorem parseUserInput_nil :
    parseUserInput [] = some ⟨[], showErrorMessage [] INVALID_INPUT⟩ := by rfl

/-- A line whose parse result is empty counts one retry. -/
theorem mainIteration_of_empty (retryCount : Nat) (line o : Str)
    (h : parseUserInput line = some ⟨[], o⟩) :
    mainIteration retryCount line = some (.next (retryCount + 1) o) := by
  simp [mainIteration, h]

/-- A line whose parse result is not empty returns from `main` when the word under `0`
is `quit` in any case; otherwise the result is printed and the retry counter set to 0,
unless `getResult` ends the process. -/
theorem mainIteration_of_nonempty (retryCount : Nat) (line o : Str) (m : StrMap)
    (h : parseUserInput line = some ⟨m, o⟩) (hm : m ≠ []) :
    mainIteration retryCount line =
      if stringToUpperCase (valueAt m "0".toList) = QUIT then some (.returned 0 o)
      else
        match getResult m with
        | .ok result =>
          some (.next 0 (o ++ endl ++ resultBanner ++ endl ++ "The result of the \"".toList
            ++ valueAt m "0".toList ++ "\" operation is: ".toList ++ result ++ endl
            ++ resultBanner ++ endl ++ endl))
        | .error e =>
          some (.aborted e (o ++ endl ++ resultBanner ++ endl ++ "The result of the \"".toList
            ++ valueAt m "0".toList ++ "\" operation is: ".toList)) := by
  have hg : getResult (StrMap.index (StrMap.index m "0".toList).2 "0".toList).2
      = getResult m := by
    rw [getResult_eq_values, valueAt_index, valueAt_index, valueAt_index, valueAt_index,
      valueAt_index, valueAt_index, ← getResult_eq_values]
  simp only [mainIteration, h, ne_eq, hm, not_false_eq_true, if_true, index_fst,
    valueAt_index, hg]

theorem mainIteration_total (retryCount : Nat) (line : Str) :
    ∃ res, mainIteration retryCount line = some res ∧
      ∀ r o, res = .next r o → r = retryCount + 1 ∨ r = 0 := by
  obtain ⟨⟨m, o⟩, hp⟩ := Option.isSome_iff_exists.1 (parseUserInput_total line)
  by_cases hm : m = []
  · subst hm
    refine ⟨_, mainIteration_of_empty retryCount line o hp, ?_⟩
    intro r o' h
    cases h
    exact Or.inl rfl
  · rw [mainIteration_of_nonempty retryCount line o m hp hm]
    split
    · exact ⟨_, rfl, by intro r o' h; cases h⟩
    · cases getResult m with
      | ok s => exact ⟨_, rfl, by intro r o' h; cases h; exact Or.inr rfl⟩
      | error e => exact ⟨_, rfl, by intro r o' h; cases h⟩

/-- The loop of `main` always ends, with a retry counter of at most 3, as soon as the
fuel exceeds the number of lines left plus the retries left. -/
theorem mainLoop_total (fuel : Nat) :
    ∀ (retryCount : Nat) (stdin : List Str) (out : Str), retryCount ≤ 3 →
      (if stdin = [] then 3 - retryCount else stdin.length + 3) < fuel →
      ∃ res, mainLoop fuel retryCount stdin out = some res ∧ res.retryCount ≤ 3 := by
  induction fuel with
  | zero => intro r stdin out _ h; omega
  | succ fuel ih =>
    intro r stdin out hr hfuel
    by_cases hlt : r < MAX_RETRIES
    · have hr3 : r < 3 := hlt
      cases stdin with
      | nil =>
        simp only [if_true] at hfuel
        have hit := mainIteration_of_empty r [] _ parseUserInput_nil
        simp only [mainLoop, hlt, if_true, promptAndGetInputFromUser, getlineCin, hit]
        exact ih (r + 1) [] _ (by omega) (by simp only [if_true]; omega)
      | cons line rest =>
        simp only [List.cons_ne_nil, if_false, List.length_cons] at hfuel
        obtain ⟨res, hres, hnext⟩ := mainIteration_total r line
        simp only [mainLoop, hlt, if_true, promptAndGetInputFromUser, getlineCin, hres]
        cases res with
        | next r' o =>
          have hr' : r' ≤ 3 := by
            rcases hnext r' o rfl with h | h <;> omega
          apply ih r' rest _ hr'
          split <;> omega
        | returned code o => exact ⟨_, rfl, hr⟩
        | aborted e o => exact ⟨_, rfl, hr⟩
    · simp only [mainLoop, hlt, if_false]
      exact ⟨_, rfl, hr⟩

/-- The interaction loop ends on every input, and the retry counter never exceeds the
maximum, so the test `retryCount > MAX_RETRIES` that follows the loop never holds. -/
theorem main_total (stdin : List Str) :
    ∃ res, main stdin = some res ∧ res.retryCount ≤ MAX_RETRIES := by
  apply mainLoop_total _ 0 stdin [] (by omega)
  split <;> omega

/-! ## Operands that reach `stod` -/

theorem roundHalfEven_nonneg (x : ℚ) (hx : 0 ≤ x) : 0 ≤ roundHalfEven x := by
  have hf : 0 ≤ ⌊x⌋ := Int.floor_nonneg.2 hx
  rcases roundHalfEven_cases x with h | ⟨h, _⟩ <;> rw [h] <;> omega

theorem Double.round_nonneg (x v : ℚ) (hx : 0 ≤ x) (h : Double.round x = .finite v) :
    0 ≤ v := by
  have hq : (0 : ℚ) < (2 : ℚ) ^ Double.quantum x := zpow_pos (by norm_num) _
  have hr : 0 ≤ roundHalfEven (x / 2 ^ Double.quantum x) :=
    roundHalfEven_nonneg _ (div_nonneg hx (le_of_lt hq))
  have hv : (0 : ℚ) ≤ (roundHalfEven (x / 2 ^ Double.quantum x) : ℚ) * 2 ^ Double.quantum x :=
    mul_nonneg (by exact_mod_cast hr) (le_of_lt hq)
  simp only [Double.round] at h
  split at h
  · cases h
  · cases h
    exact hv

/-- Whatever `stod` returns is a finite value that is not negative. -/
theorem stod_finite_nonneg (a : Str) (x : Double) (h : stod a = .ok x) :
    ∃ v : ℚ, x = .finite v ∧ 0 ≤ v := by
  simp only [stod] at h
  split at h
  · cases h
  · split at h
    · rename_i v hv
      split at h
      · cases h
      · cases h
        exact ⟨v, rfl, Double.round_nonneg _ v (by positivity) hv⟩
    · cases h

/-- A token accepted by the number check holds no space. -/
theorem isAValidNumber_no_space (a : Str) (ha : isAValidNumber a = true) : ' ' ∉ a := by
  intro hmem
  have := isAValidNumberLoop_bad_char a 0 ⟨' ', hmem, by decide, by decide⟩
  rw [isAValidNumber] at ha
  rw [ha] at this
  cases this

/-- A line made of an accepted command word and two tokens accepted by the number check
parses to the three-entry map, and nothing is printed. -/
theorem parseUserInput_validated_line (c a b : Str) (hcv : isAValidCommand c = true)
    (hcsp : ' ' ∉ c) (ha : validateAndReturnParsedInput a 1 ≠ [])
    (hb : validateAndReturnParsedInput b 2 ≠ []) :
    parseUserInput (commandLine c a b) = some ⟨commandMap c a b, []⟩ := by
  have hcne : c ≠ [] := by
    intro h; rw [h] at hcv; exact absurd hcv (by decide)
  have hav : isAValidNumber a = true ∧ a ≠ [] := by
    simp only [validateAndReturnParsedInput, Nat.one_ne_zero, if_false] at ha
    by_cases h : isAValidNumber a = true
    · exact ⟨h, by simpa [h] using ha⟩
    · simp [h] at ha
  have hbv : isAValidNumber b = true ∧ b ≠ [] := by
    simp only [validateAndReturnParsedInput, OfNat.ofNat_ne_zero, if_false] at hb
    by_cases h : isAValidNumber b = true
    · exact ⟨h, by simpa [h] using hb⟩
    · simp [h] at hb
  have hline : commandLine c a b = c ++ ' ' :: (a ++ ' ' :: b) := by
    simp [commandLine]
  rw [parseUserInput_eq_parseTokens, hline, tokens_append_space _ _ hcsp,
    tokens_append_space _ _ (isAValidNumber_no_space a hav.1),
    tokens_of_no_space _ (isAValidNumber_no_space b hbv.1),
    parseTokens_three c a b hcv hcne hav.1 hav.2 hbv.1 hbv.2]
  rfl

/-! ## Operands denoting zero -/

theorem digitsValue_zeros (l : Str) (h : ∀ ch ∈ l, ch = '0') : digitsValue l 0 = 0 := by
  induction l with
  | nil => rfl
  | cons c rest ih =>
    have hc : c = '0' := h c (List.mem_cons_self _ _)
    subst hc
    simp only [digitsValue, Nat.zero_mul, Nat.sub_self, Nat.add_zero]
    exact ih (fun ch hm => h ch (List.mem_cons_of_mem _ hm))

/-- When the digits that `stod` reads are not missing and their value is zero, `stod`
returns zero. -/
theorem stod_of_zero_value (z : Str)
    (hne : ¬ (z.takeWhile Char.isDigit = [] ∧
      (match z.dropWhile Char.isDigit with
        | '.' :: rest => rest.takeWhile Char.isDigit
        | _ => []) = []))
    (hval : digitsValue (z.takeWhile Char.isDigit ++
      (match z.dropWhile Char.isDigit with
        | '.' :: rest => rest.takeWhile Char.isDigit
        | _ => [])) 0 = 0) :
    stod z = .ok (.finite 0) := by
  simp only [stod, hne, if_false, hval, Nat.cast_zero, zero_div, Double.round_zero, ne_eq,
    not_true_eq_false, false_and]

/-- Every literal denoting zero is accepted by the validator and converted to zero by
`stod`. -/
theorem stod_zero_literal (z : Str) (hz : isZeroLiteral z = true) :
    validateAndReturnParsedInput z 2 ≠ [] ∧ stod z = .ok (.finite 0) := by
  simp only [isZeroLiteral, Bool.and_eq_true, List.all_eq_true, Bool.or_eq_true, beq_iff_eq,
    List.any_eq_true, decide_eq_true_eq] at hz
  obtain ⟨⟨hall, ⟨w, hw, hw0⟩⟩, hcount⟩ := hz
  subst hw0
  have hne : z ≠ [] := List.ne_nil_of_mem hw
  have hdig : ∀ ch ∈ z, ch.isDigit = true ∨ ch = '.' := by
    intro ch hm
    rcases hall ch hm with h | h
    · left; rw [h]; decide
    · right; exact h
  have hvalid : isAValidNumber z = true := isAValidNumberLoop_of_chars z 0 hdig (by omega)
  have hzero : ∀ ch ∈ z, ch.isDigit = true → ch = '0' := by
    intro ch hm hd
    rcases hall ch hm with h | h
    · exact h
    · rw [h] at hd; exact absurd hd (by decide)
  have hint : ∀ ch ∈ z.takeWhile Char.isDigit, ch = '0' := by
    intro ch hm
    exact hzero ch ((List.takeWhile_sublist _).subset hm) (List.mem_takeWhile_imp hm)
  have hfrac : ∀ ch ∈ (match z.dropWhile Char.isDigit with
      | '.' :: rest => rest.takeWhile Char.isDigit
      | _ => []), ch = '0' := by
    intro ch hm
    split at hm
    · rename_i rest hrest
      have h1 : ch ∈ rest := (List.takeWhile_sublist _).subset hm
      have h2 : ch ∈ z.dropWhile Char.isDigit := by rw [hrest]; exact List.mem_cons_of_mem _ h1
      exact hzero ch ((List.dropWhile_sublist _).subset h2) (List.mem_takeWhile_imp hm)
    · simp at hm
  refine ⟨?_, ?_⟩
  · simp only [validateAndReturnParsedInput, OfNat.ofNat_ne_zero, if_false, hvalid, if_true]
    exact hne
  · apply stod_of_zero_value
    · rintro ⟨h1, h2⟩
      cases z with
      | nil => exact hne rfl
      | cons c t =>
        rcases hall c (List.mem_cons_self _ _) with hc | hc
        · subst hc
          have hd0 : Char.isDigit '0' = true := by decide
          simp [List.takeWhile, hd0] at h1
        · subst hc
          have hdp : Char.isDigit '.' = false := by decide
          have ht : '.' ∉ t := by
            intro hmem
            have : 2 ≤ List.count '.' ('.' :: t) := by
              rw [List.count_cons_self]
              have := List.count_pos_iff.2 hmem
              omega
            omega
          have h0t : '0' ∈ t := by
            rcases List.mem_cons.1 hw with h | h
            · exact absurd h (by decide)
            · exact h
          cases t with
          | nil => simp at h0t
          | cons d t' =>
            have hd : d = '0' := by
              rcases hall d (by simp) with h | h
              · exact h
              · exact absurd (h ▸ (by simp : d ∈ d :: t')) ht
            subst hd
            have hd0 : Char.isDigit '0' = true := by decide
            simp [List.dropWhile, List.takeWhile, hdp, hd0] at h2
    · apply digitsValue_zeros
      intro ch hm
      rcases List.mem_append.1 hm with h | h
      · exact hint ch h
      · exact hfrac ch h

/-! ## The claims -/

/-- Claim C1: For every re-casing `c` of `ADD`, `SUBTRACT`, `MULTIPLY` or `DIVIDE` and all
operand tokens `a`, `b` (non-empty, decimal digits with at most one `'.'`),
`parseUserInput` on the line `c a b` prints no error and returns exactly the three
entries `0 ↦ c`, `1 ↦ a`, `2 ↦ b`, unmodified and in input order. -/
theorem parseUserInput_wellformed (c a b keyword : Str)
    (hkw : keyword = ADD ∨ keyword = SUBTRACT ∨ keyword = MULTIPLY ∨ keyword = DIVIDE)
    (hc : isRecasingOf c keyword = true)
    (ha : isOperandToken a = true) (hb : isOperandToken b = true) :
    parseUserInput (c ++ " ".toList ++ a ++ " ".toList ++ b)
      = some ⟨[("0".toList, c), ("1".toList, a), ("2".toList, b)], []⟩ := by
  have hmem : keyword ∈ VALID_COMMANDS := by
    rcases hkw with rfl | rfl | rfl | rfl <;> simp [VALID_COMMANDS]
  obtain ⟨_, hcv, hcne, hcsp⟩ := isRecasingOf_keyword c keyword hmem hc
  exact parseUserInput_commandLine c a b hcv hcne hcsp ha hb

theorem parseUserInput_wellformed_witness :
    isRecasingOf "Add".toList ADD = true ∧ isOperandToken "10".toList = true ∧
      isOperandToken "2.5".toList = true ∧
      parseUserInput ("Add".toList ++ " ".toList ++ "10".toList ++ " ".toList ++ "2.5".toList)
        = some ⟨[("0".toList, "Add".toList), ("1".toList, "10".toList),
            ("2".toList, "2.5".toList)], []⟩ :=
  ⟨by decide, by decide, by decide,
    parseUserInput_wellformed "Add".toList "10".toList "2.5".toList ADD (Or.inl rfl)
      (by decide) (by decide) (by decide)⟩

/-- Claim C2 (the code departs from it): The line `add` yields a non-empty result
that holds the keyword only, with no entry at position 1 or 2 and no error printed;
likewise `add 1` yields a result without position 2.  On the first of these
`getResult` then ends with the `invalid_argument` exception of `stod`. -/
theorem parseUserInput_keyword_only :
    parseUserInput "add".toList = some ⟨[("0".toList, "add".toList)], []⟩ ∧
    parseUserInput "add 1".toList
      = some ⟨[("0".toList, "add".toList), ("1".toList, "1".toList)], []⟩ ∧
    getResult [("0".toList, "add".toList)] = .error .invalid_argument := by
  refine ⟨by rfl, by rfl, by decide!⟩

/-- Claim C3 (the code departs from it): A token with two `'.'` characters is
accepted at operand positions 1 and 2: `1.2.3` is returned, not the empty rejection
marker. -/
theorem validate_accepts_two_dots :
    validateAndReturnParsedInput "1.2.3".toList 1 = "1.2.3".toList ∧
    validateAndReturnParsedInput "1.2.3".toList 2 = "1.2.3".toList := by
  constructor <;> decide

/-- Claim C5 (the code departs from it): The four-token line `add 1 2 3` is not
discarded: the result holds four entries and nothing is printed, and `getResult`
computes `3` from it.  The five-token line `add 1 2 3 4` prints the extraneous-input
message and still returns the four entries accepted before it. -/
theorem parseUserInput_four_tokens_kept :
    parseUserInput "add 1 2 3".toList
      = some ⟨[("0".toList, "add".toList), ("1".toList, "1".toList),
          ("2".toList, "2".toList), ("3".toList, "3".toList)], []⟩ ∧
    getResult [("0".toList, "add".toList), ("1".toList, "1".toList),
        ("2".toList, "2".toList), ("3".toList, "3".toList)] = .ok "3".toList ∧
    parseUserInput "add 1 2 3 4".toList
      = some ⟨[("0".toList, "add".toList), ("1".toList, "1".toList),
          ("2".toList, "2".toList), ("3".toList, "3".toList)],
          showErrorMessage "4".toList EXTRANEOUS_INPUT⟩ := by
  refine ⟨by rfl, by decide!, by rfl⟩

/-- Claim C6 (the code departs from it): With a numeric fourth token nothing is
printed at all (`add 1 2 3`), and with a non-numeric fourth token the message is the
invalid-input one, not the extraneous-input one (`add 1 2 x`). -/
theorem parseUserInput_fourth_token_not_extraneous :
    (parseUserInput "add 1 2 3".toList).map ParseOutcome.output = some [] ∧
    (parseUserInput "add 1 2 x".toList).map ParseOutcome.output
      = some (showErrorMessage "x".toList INVALID_INPUT) ∧
    showErrorMessage "x".toList INVALID_INPUT ≠ showErrorMessage "x".toList EXTRANEOUS_INPUT := by
  refine ⟨by rfl, by rfl, by decide⟩

/-- Claim C7: If the first token that fails validation for its position is at position
`k ≤ 2`, that is, the tokens before it are accepted by the validator and it is rejected
(as is an unrecognised keyword at position 0 and a token with a character other than a
digit or `'.'` at position 1 or 2, see `validateAndReturnParsedInput_rejects`), then
`parseUserInput` prints the invalid-input message naming exactly that token and returns
the empty result. -/
theorem parseUserInput_first_invalid (line tok : Str) (k : Nat) (hk : k ≤ 2)
    (htok : (tokens line).get? k = some tok)
    (hprev : ∀ j t, j < k → (tokens line).get? j = some t →
      validateAndReturnParsedInput t j ≠ [])
    (hbad : validateAndReturnParsedInput tok k = []) :
    parseUserInput line = some ⟨[], showErrorMessage tok INVALID_INPUT⟩ := by
  rw [parseUserInput_eq_parseTokens]
  have h := parseTokens_first_invalid tok k (tokens line) 0 [] [] (by omega) htok
    (by simpa using hprev) (by simpa using hbad)
  simpa using h

theorem parseUserInput_first_invalid_witness :
    (tokens "add 1 x".toList).get? 2 = some "x".toList ∧
    (∀ j t, j < 2 → (tokens "add 1 x".toList).get? j = some t →
      validateAndReturnParsedInput t j ≠ []) ∧
    validateAndReturnParsedInput "x".toList 2 = [] ∧
    parseUserInput "add 1 x".toList = some ⟨[], showErrorMessage "x".toList INVALID_INPUT⟩ :=
  have hprev : ∀ j t, j < 2 → (tokens "add 1 x".toList).get? j = some t →
      validateAndReturnParsedInput t j ≠ [] := by
    intro j t hj hget
    have htoks : tokens "add 1 x".toList = ["add".toList, "1".toList, "x".toList] := by decide
    rw [htoks] at hget
    rcases (by omega : j = 0 ∨ j = 1) with rfl | rfl
    · simp at hget; subst hget; decide
    · simp at hget; subst hget; decide
  ⟨by decide, hprev, by decide,
    parseUserInput_first_invalid "add 1 x".toList "x".toList 2 (by decide) (by decide) hprev
      (by decide)⟩


/-- Claim C8, as amended: for every re-casing `c` of `ADD`, `SUBTRACT` or `MULTIPLY` and
all digit-only operand tokens `a`, `b` whose values are at most `2^53` and whose exact
sum, difference or product lies in the `int` range, the line `c a b` parses to the
three-entry command and `getResult` returns the decimal rendering of the exact
result. -/
theorem getResult_exact_integer (c a b keyword : Str)
    (hkw : keyword = ADD ∨ keyword = SUBTRACT ∨ keyword = MULTIPLY)
    (hc : isRecasingOf c keyword = true)
    (ha : isDigitToken a = true) (hb : isDigitToken b = true)
    (hA : digitsValue a 0 ≤ 2 ^ 53) (hB : digitsValue b 0 ≤ 2 ^ 53)
    (hlo : -2 ^ 31 ≤ exactResult keyword (digitsValue a 0) (digitsValue b 0))
    (hhi : exactResult keyword (digitsValue a 0) (digitsValue b 0) ≤ 2 ^ 31 - 1) :
    parseUserInput (commandLine c a b) = some ⟨commandMap c a b, []⟩ ∧
    getResult (commandMap c a b)
      = .ok (to_string_int (exactResult keyword (digitsValue a 0) (digitsValue b 0))) := by
  have hmem : keyword ∈ VALID_COMMANDS := by
    rcases hkw with rfl | rfl | rfl <;> simp [VALID_COMMANDS]
  obtain ⟨hu, hcv, hcne, hcsp⟩ := isRecasingOf_keyword c keyword hmem hc
  refine ⟨parseUserInput_commandLine c a b hcv hcne hcsp
    (isOperandToken_of_isDigitToken a ha) (isOperandToken_of_isDigitToken b hb), ?_⟩
  have hfa := isAFloatingPointNumber_of_digits a (isDigitToken_spec a ha).2
  have hfb := isAFloatingPointNumber_of_digits b (isDigitToken_spec b hb).2
  have hr : |exactResult keyword (digitsValue a 0) (digitsValue b 0)| ≤ 2 ^ 53 := by
    rw [abs_le]; constructor <;> omega
  have hop := performOperation_exact c keyword hu hkw (digitsValue a 0) (digitsValue b 0) hr
  simp only [Int.cast_natCast] at hop
  rw [getResult_commandMap, stod_digits a ha hA, stod_digits b hb hB]
  simp only [hfa, hfb, Bool.or_self, Bool.false_eq_true, if_false, hop,
    castToInt_intCast _ hlo hhi]

theorem getResult_exact_integer_witness :
    isRecasingOf "add".toList ADD = true ∧ isDigitToken "10".toList = true ∧
      isDigitToken "5".toList = true ∧
      (parseUserInput (commandLine "add".toList "10".toList "5".toList)
          = some ⟨commandMap "add".toList "10".toList "5".toList, []⟩ ∧
        getResult (commandMap "add".toList "10".toList "5".toList)
          = .ok (to_string_int (exactResult ADD (digitsValue "10".toList 0)
              (digitsValue "5".toList 0)))) ∧
      to_string_int (exactResult ADD (digitsValue "10".toList 0) (digitsValue "5".toList 0))
        = "15".toList :=
  ⟨by decide, by decide, by decide,
    getResult_exact_integer "add".toList "10".toList "5".toList ADD (Or.inl rfl)
      (by decide) (by decide) (by decide) (by decide) (by decide) (by decide) (by decide),
    by decide⟩

/-- Claim C8 as stated fails: `subtract 9007199254740993 9007199254740992` returns `0`
(the first operand is rounded to `2^53` by `stod`), while the exact difference is `1`;
and `add 2147483647 1` has no defined result, the sum not being representable as
`int`. -/
theorem getResult_exact_integer_counterexample :
    getResult (commandMap "subtract".toList "9007199254740993".toList
        "9007199254740992".toList) = .ok "0".toList ∧
    to_string_int (exactResult SUBTRACT (digitsValue "9007199254740993".toList 0)
        (digitsValue "9007199254740992".toList 0)) = "1".toList ∧
    getResult (commandMap "add".toList "2147483647".toList "1".toList)
      = .error .undefined_conversion := by
  refine ⟨by decide!, by decide!, by decide!⟩

/-- Claim C9, as amended: for every re-casing `c` of `DIVIDE` and all digit-only
operand tokens `a`, `b` whose values are at most `2^53`, with `b` non-zero and the
truncated quotient in the `int` range, the line `c a b` parses to the three-entry
command and `getResult` returns the decimal rendering of the quotient truncated toward
zero, whether or not `b` divides `a`. -/
theorem getResult_divide_truncates (c a b : Str)
    (hc : isRecasingOf c DIVIDE = true)
    (ha : isDigitToken a = true) (hb : isDigitToken b = true)
    (hA : digitsValue a 0 ≤ 2 ^ 53) (hB : digitsValue b 0 ≤ 2 ^ 53)
    (hB0 : digitsValue b 0 ≠ 0)
    (hq : digitsValue a 0 / digitsValue b 0 ≤ 2 ^ 31 - 1) :
    parseUserInput (commandLine c a b) = some ⟨commandMap c a b, []⟩ ∧
    getResult (commandMap c a b)
      = .ok (to_string_int ((digitsValue a 0 / digitsValue b 0 : ℕ) : ℤ)) := by
  obtain ⟨hu, hcv, hcne, hcsp⟩ :=
    isRecasingOf_keyword c DIVIDE (by simp [VALID_COMMANDS]) hc
  refine ⟨parseUserInput_commandLine c a b hcv hcne hcsp
    (isOperandToken_of_isDigitToken a ha) (isOperandToken_of_isDigitToken b hb), ?_⟩
  have hfa := isAFloatingPointNumber_of_digits a (isDigitToken_spec a ha).2
  have hfb := isAFloatingPointNumber_of_digits b (isDigitToken_spec b hb).2
  have n1 : DIVIDE ≠ ADD := by decide
  have n2 : DIVIDE ≠ SUBTRACT := by decide
  have n3 : DIVIDE ≠ MULTIPLY := by decide
  have hB0Q : (digitsValue b 0 : ℚ) ≠ 0 := by exact_mod_cast hB0
  obtain ⟨v, hv1, hv2⟩ := castToInt_round_div (digitsValue a 0) (digitsValue b 0)
    (Nat.pos_of_ne_zero hB0) hA hB hq
  have hop : performOperation c (.finite (digitsValue a 0 : ℚ)) (.finite (digitsValue b 0 : ℚ))
      = .finite v := by
    simp only [performOperation, hu, n1, n2, n3, if_false, divideNumbers, hB0Q, hv1]
  rw [getResult_commandMap, stod_digits a ha hA, stod_digits b hb hB]
  simp only [hfa, hfb, Bool.or_self, Bool.false_eq_true, if_false, hop, hv2]

theorem getResult_divide_truncates_witness :
    isRecasingOf "divide".toList DIVIDE = true ∧ isDigitToken "10".toList = true ∧
      isDigitToken "4".toList = true ∧
      (parseUserInput (commandLine "divide".toList "10".toList "4".toList)
          = some ⟨commandMap "divide".toList "10".toList "4".toList, []⟩ ∧
        getResult (commandMap "divide".toList "10".toList "4".toList)
          = .ok (to_string_int ((digitsValue "10".toList 0 / digitsValue "4".toList 0 : ℕ) : ℤ))) ∧
      to_string_int ((digitsValue "10".toList 0 / digitsValue "4".toList 0 : ℕ) : ℤ)
        = "2".toList :=
  ⟨by decide, by decide, by decide,
    getResult_divide_truncates "divide".toList "10".toList "4".toList
      (by decide) (by decide) (by decide) (by decide) (by decide) (by decide) (by decide),
    by decide⟩

/-- Claim C9 as stated fails: `divide 18014398509481983 16777216` returns `1073741824`
(the dividend `2^54 - 1` is rounded to `2^54` by `stod`), while the quotient truncated
toward zero is `1073741823`. -/
theorem getResult_divide_truncates_counterexample :
    getResult (commandMap "divide".toList "18014398509481983".toList "16777216".toList)
      = .ok "1073741824".toList ∧
    to_string_int ((digitsValue "18014398509481983".toList 0
        / digitsValue "16777216".toList 0 : ℕ) : ℤ) = "1073741823".toList := by
  refine ⟨by decide!, by decide!⟩

/-- Claim C10, as amended: whenever `getResult` returns a value for a command with
operand tokens `a` and `b`, other than the renderings `inf`, `-inf`, `nan` of a
non-finite result, that value is in fixed notation (decimal point and six fractional
digits) exactly when at least one of `a`, `b` contains a `'.'`, and in integer form
exactly when neither does; the decision reads the operand text only.  For
`divide 42 6.0` the value is `7.000000`. -/
theorem getResult_rendering_form :
    (∀ c a b s : Str, getResult (commandMap c a b) = .ok s →
      s ≠ "inf".toList → s ≠ "-inf".toList → s ≠ "nan".toList →
      (isFixedNotation s = true ↔
        (isAFloatingPointNumber a || isAFloatingPointNumber b) = true) ∧
      (isIntegerNotation s = true ↔
        (isAFloatingPointNumber a || isAFloatingPointNumber b) = false)) ∧
    getResult (commandMap "divide".toList "42".toList "6.0".toList)
      = .ok "7.000000".toList := by
  refine ⟨?_, by decide!⟩
  intro c a b s hres h1 h2 h3
  rw [getResult_commandMap] at hres
  cases hx : stod a with
  | error e => rw [hx] at hres; cases hres
  | ok x =>
    cases hy : stod b with
    | error e => rw [hx, hy] at hres; cases hres
    | ok y =>
      rw [hx, hy] at hres
      simp only at hres
      cases hF : (isAFloatingPointNumber a || isAFloatingPointNumber b)
      · rw [hF] at hres
        simp only [Bool.false_eq_true, if_false] at hres
        cases hi : castToInt (performOperation c x y) with
        | none => rw [hi] at hres; cases hres
        | some i =>
          rw [hi] at hres
          simp only [Except.ok.injEq] at hres
          subst hres
          obtain ⟨n1, n2⟩ := to_string_int_form i
          simp [n1, n2]
      · rw [hF] at hres
        simp only [if_true, Except.ok.injEq] at hres
        cases hr : performOperation c x y with
        | finite v =>
          rw [hr] at hres
          subst hres
          obtain ⟨n1, n2⟩ := to_string_double_form v
          simp [n1, n2]
        | infinity neg =>
          rw [hr] at hres
          cases neg
          · exact absurd hres.symm h1
          · exact absurd hres.symm h2
        | nan =>
          rw [hr] at hres
          exact absurd hres.symm h3

theorem getResult_rendering_form_witness :
    getResult (commandMap "divide".toList "42".toList "6.0".toList) = .ok "7.000000".toList ∧
    (isFixedNotation "7.000000".toList = true ↔
      (isAFloatingPointNumber "42".toList || isAFloatingPointNumber "6.0".toList) = true) ∧
    (isIntegerNotation "7.000000".toList = true ↔
      (isAFloatingPointNumber "42".toList || isAFloatingPointNumber "6.0".toList) = false) :=
  ⟨by decide!,
    getResult_rendering_form.1 "divide".toList "42".toList "6.0".toList "7.000000".toList
      (by decide!) (by decide) (by decide) (by decide)⟩

/-- Claim C10 as stated fails: for `divide 1.0 0` the first operand contains a `'.'`, yet
the value returned is `inf`, which is not in fixed notation; and for `add . 1` the
command is parsed but `getResult` renders nothing, `stod` throwing
`invalid_argument`. -/
theorem getResult_rendering_form_counterexample :
    isAFloatingPointNumber "1.0".toList = true ∧
    getResult (commandMap "divide".toList "1.0".toList "0".toList) = .ok "inf".toList ∧
    isFixedNotation "inf".toList = false ∧
    parseUserInput (commandLine "add".toList ".".toList "1".toList)
      = some ⟨commandMap "add".toList ".".toList "1".toList, []⟩ ∧
    getResult (commandMap "add".toList ".".toList "1".toList) = .error .invalid_argument := by
  refine ⟨by decide, by decide!, by decide, by rfl, by decide!⟩

/-- Claim C11: Command keywords are case-insensitive end to end.  For every keyword `k`
among `add`, `subtract`, `multiply`, `divide`, every re-casing `k'` of `k` and all
operands `a`, `b`, the lines `k a b` and `k' a b` print the same text, their parse
results are both empty or both non-empty, and `getResult` returns the same for both. -/
theorem keyword_case_insensitive (k k' a b : Str)
    (hk : k = "add".toList ∨ k = "subtract".toList ∨ k = "multiply".toList ∨
      k = "divide".toList)
    (hk' : isRecasingOf k' k = true) :
    ∃ m m' out, parseUserInput (commandLine k a b) = some ⟨m, out⟩ ∧
      parseUserInput (commandLine k' a b) = some ⟨m', out⟩ ∧
      (m' = [] ↔ m = []) ∧ getResult m' = getResult m := by
  have hk5 : k = "add".toList ∨ k = "subtract".toList ∨ k = "multiply".toList ∨
      k = "divide".toList ∨ k = "quit".toList := by
    rcases hk with h | h | h | h <;> simp [h]
  obtain ⟨hu, hcv, hcne, hcsp, hkv, hkne, hksp⟩ := isRecasingOf_word k' k hk5 hk'
  have hline : ∀ w : Str, commandLine w a b = w ++ ' ' :: (a ++ ' ' :: b) := by
    intro w; simp [commandLine]
  rw [hline k, hline k', parseUserInput_keyword_line k _ hkv hkne hksp,
    parseUserInput_keyword_line k' _ hcv hcne hcsp]
  rcases parseTokens_keyword_swap k k' (tokens (a ++ ' ' :: b)) 1 [] [] (le_refl 1) with
    ⟨o, h1, h2⟩ | ⟨q, o, h1, h2⟩
  · exact ⟨[], [], o, by rw [h1], by rw [h2], Iff.rfl, rfl⟩
  · exact ⟨_, _, o, by rw [h1], by rw [h2], by simp, getResult_keyword_swap k k' q hu⟩

theorem keyword_case_insensitive_witness :
    isRecasingOf "Add".toList "add".toList = true ∧
    ∃ m m' out, parseUserInput (commandLine "add".toList "1".toList "2".toList)
        = some ⟨m, out⟩ ∧
      parseUserInput (commandLine "Add".toList "1".toList "2".toList) = some ⟨m', out⟩ ∧
      (m' = [] ↔ m = []) ∧ getResult m' = getResult m :=
  ⟨by decide,
    keyword_case_insensitive "add".toList "Add".toList "1".toList "2".toList (Or.inl rfl)
      (by decide)⟩

/-- Claim C12 (the code departs from it): In the session `foo`, `add` the retry counter
is 1 when the line `add` is read; its parse result is non-empty and not `quit`, yet the
counter is not reset to 0 and the loop does not go on: the process ends inside
`getResult` with the `invalid_argument` exception of `stod`. -/
theorem main_no_reset_on_keyword_only :
    (parseUserInput "add".toList).map ParseOutcome.parsed
      = some [("0".toList, "add".toList)] ∧
    (main ["foo".toList, "add".toList]).map (fun r => (r.termination, r.retryCount))
      = some (.aborted .invalid_argument, 1) := by
  refine ⟨by rfl, by decide!⟩

/-- Claim C13 (the code departs from it): In the session `foo`, `bar`, `baz` the
program returns 0 with the retry counter at 3, having printed three prompts and three
invalid-input messages and nothing else: the test after the loop is
`retryCount > MAX_RETRIES`, which fails at 3, so the retry-exhausted message is not
printed. -/
theorem main_three_invalid_lines :
    main ["foo".toList, "bar".toList, "baz".toList]
      = some ⟨.returned 0, 3,
          showCommandFormatAndExample ++ "Enter the command : ".toList
            ++ showErrorMessage "foo".toList INVALID_INPUT
            ++ showCommandFormatAndExample ++ "Enter the command : ".toList
            ++ showErrorMessage "bar".toList INVALID_INPUT
            ++ showCommandFormatAndExample ++ "Enter the command : ".toList
            ++ showErrorMessage "baz".toList INVALID_INPUT⟩ ∧
    (main ["foo".toList, "bar".toList, "baz".toList]).map
        (fun r => decide (RETRY_ATTEMPTS_EXHAUSTED <:+: r.output)) = some false := by
  refine ⟨by decide!, by decide!⟩

/-- Claim C14: For every value 0, 1 or 2 of the retry counter and every re-casing `q` of
`quit`, a line made of `q` alone ends the program at that iteration with exit code 0:
nothing is printed after the prompt (no result, no error message) and the retry counter
keeps its value. -/
theorem quit_terminates (retryCount fuel : Nat) (q out : Str) (rest : List Str)
    (hr : retryCount < MAX_RETRIES) (hq : isRecasingOf q "quit".toList = true) :
    parseUserInput q = some ⟨[("0".toList, q)], []⟩ ∧
    mainIteration retryCount q = some (.returned 0 []) ∧
    mainLoop (fuel + 1) retryCount (q :: rest) out
      = some ⟨.returned 0, retryCount,
          out ++ (showCommandFormatAndExample ++ "Enter the command : ".toList)⟩ := by
  obtain ⟨hu, hcv, hcne, hcsp, _, _, _⟩ :=
    isRecasingOf_word q "quit".toList (by simp) hq
  have hparse : parseUserInput q = some ⟨[("0".toList, q)], []⟩ := by
    have v0 : validateAndReturnParsedInput q 0 = q := by
      simp [validateAndReturnParsedInput, hcv]
    have g0 : ¬ (0 > 3) := by decide
    rw [parseUserInput_eq_parseTokens, tokens_of_no_space _ hcsp]
    simp only [parseTokens, g0, if_false, v0, ne_eq, hcne, not_false_eq_true, if_true,
      to_string_int_zero]
    rfl
  have hquit : stringToUpperCase (valueAt [("0".toList, q)] "0".toList) = QUIT := by
    rw [(valueAt_cons_zero q []).1, hu]; decide
  have hit : mainIteration retryCount q = some (.returned 0 []) := by
    rw [mainIteration_of_nonempty retryCount q [] _ hparse (by simp), if_pos hquit]
  refine ⟨hparse, hit, ?_⟩
  simp only [mainLoop, hr, if_true, promptAndGetInputFromUser, getlineCin, hit,
    List.append_nil, List.append_assoc]

theorem quit_terminates_witness :
    (2 : Nat) < MAX_RETRIES ∧ isRecasingOf "QuIt".toList "quit".toList = true ∧
    (parseUserInput "QuIt".toList = some ⟨[("0".toList, "QuIt".toList)], []⟩ ∧
      mainIteration 2 "QuIt".toList = some (.returned 0 []) ∧
      mainLoop (0 + 1) 2 ["QuIt".toList] []
        = some ⟨.returned 0, 2,
            [] ++ (showCommandFormatAndExample ++ "Enter the command : ".toList)⟩) :=
  ⟨by decide, by decide,
    quit_terminates 2 0 "QuIt".toList [] [] (by decide) (by decide)⟩

/-- Claim C15 (the code departs from it): The lines `add` and `add . 1` are parsed to
non-empty, non-quit results, and the iteration then ends inside `getResult` with the
uncaught `invalid_argument` exception of `stod` (on the empty string that
`command["1"]` inserts, and on `.`), neither re-prompting nor returning 0. -/
theorem mainIteration_aborts :
    (parseUserInput "add".toList).map ParseOutcome.parsed
      = some [("0".toList, "add".toList)] ∧
    stod [] = .error .invalid_argument ∧
    main ["add".toList]
      = some ⟨.aborted .invalid_argument, 0,
          showCommandFormatAndExample ++ "Enter the command : ".toList ++ endl
            ++ resultBanner ++ endl ++ "The result of the \"add\" operation is: ".toList⟩ ∧
    (parseUserInput "add . 1".toList).map ParseOutcome.parsed
      = some (commandMap "add".toList ".".toList "1".toList) ∧
    stod ".".toList = .error .invalid_argument ∧
    (main ["add . 1".toList]).map MainOutcome.termination
      = some (.aborted .invalid_argument) := by
  refine ⟨by rfl, by decide!, by decide!, by rfl, by decide!, by decide!⟩

/-- Claim C16: An empty token is neither a valid command nor a valid number.  The
validator rejects it at every position; a line with an empty token among its first
three tokens, and a line of three accepted tokens followed by a trailing space, print
the invalid-input message and return the empty result. -/
theorem empty_token_rejected :
    (∀ i : Nat, validateAndReturnParsedInput [] i = []) ∧
    (∀ (line : Str) (k : Nat), k ≤ 2 → (tokens line).get? k = some [] →
      ∃ tok, parseUserInput line = some ⟨[], showErrorMessage tok INVALID_INPUT⟩) ∧
    (∀ c a b : Str, isAValidCommand c = true → ' ' ∉ c →
      validateAndReturnParsedInput a 1 ≠ [] → ' ' ∉ a →
      validateAndReturnParsedInput b 2 ≠ [] → ' ' ∉ b →
      parseUserInput (commandLine c a b ++ " ".toList)
        = some ⟨[], showErrorMessage [] INVALID_INPUT⟩) := by
  have hnil : ∀ i : Nat, validateAndReturnParsedInput [] i = [] := by
    intro i
    simp only [validateAndReturnParsedInput]
    split <;> split <;> rfl
  refine ⟨hnil, ?_, ?_⟩
  · intro line k hk hget
    rw [parseUserInput_eq_parseTokens]
    obtain ⟨tok, h⟩ := parseTokens_some_invalid k (tokens line) 0 [] [] (by omega)
      ⟨[], hget, hnil _⟩
    exact ⟨tok, by simpa using h⟩
  · intro c a b hcv hcsp ha hasp hb hbsp
    have hcne : validateAndReturnParsedInput c 0 ≠ [] := by
      have : c ≠ [] := by
        intro h; rw [h] at hcv; exact absurd hcv (by decide)
      simpa [validateAndReturnParsedInput, hcv] using this
    have hline : commandLine c a b ++ " ".toList = c ++ ' ' :: (a ++ ' ' :: (b ++ ' ' :: [])) := by
      simp [commandLine]
    have htok : tokens (commandLine c a b ++ " ".toList) = [c, a, b, []] := by
      rw [hline, tokens_append_space _ _ hcsp, tokens_append_space _ _ hasp,
        tokens_append_space _ _ hbsp]
      rfl
    rw [parseUserInput_eq_parseTokens, htok]
    have h := parseTokens_first_invalid [] 3 [c, a, b, []] 0 [] [] (by omega) (by simp)
      (by
        intro j t hj hget
        rcases (by omega : j = 0 ∨ j = 1 ∨ j = 2) with rfl | rfl | rfl
        · simp at hget; subst hget; simpa using hcne
        · simp at hget; subst hget; simpa using ha
        · simp at hget; subst hget; simpa using hb)
      (hnil _)
    simpa using h

theorem empty_token_rejected_witness :
    (tokens "add  1".toList).get? 1 = some [] ∧
    (∃ tok, parseUserInput "add  1".toList = some ⟨[], showErrorMessage tok INVALID_INPUT⟩) ∧
    parseUserInput (commandLine "add".toList "1".toList "2".toList ++ " ".toList)
      = some ⟨[], showErrorMessage [] INVALID_INPUT⟩ :=
  ⟨by decide,
    empty_token_rejected.2.1 "add  1".toList 1 (by decide) (by decide),
    empty_token_rejected.2.2 "add".toList "1".toList "2".toList (by decide) (by decide)
      (by decide) (by decide) (by decide) (by decide)⟩

/-- Claim C17 (the code departs from it): `mod` is not accepted as a command keyword:
`MOD` is not in the command table, the line `mod 9 4` yields the empty result, and
`main` counts it as a failed attempt. -/
theorem mod_not_a_command :
    "MOD".toList ∉ VALID_COMMANDS ∧ isAValidCommand "mod".toList = false ∧
    (parseUserInput "mod 9 4".toList).map ParseOutcome.parsed = some [] ∧
    mainIteration 0 "mod 9 4".toList
      = some (.next 1 (showErrorMessage "mod".toList INVALID_INPUT)) := by
  refine ⟨by decide, by decide, by rfl, by rfl⟩

/-- Claim C18, as amended: division by zero is not an error.  For every re-casing `c`
of `DIVIDE`, every first operand `a` accepted by the validator and every accepted
second operand `z` that `stod` converts to zero (every literal denoting zero is one, see
`stod_zero_literal`), the line is parsed to the three-entry command and nothing is
printed; `divideNumbers` has no guard: a finite value divided by zero is a NaN (for
zero) or an infinity.  Whenever `stod` converts `a` and one of the two operands contains
a `'.'`, `getResult` returns the rendering `inf` or `nan` of the quotient, and the
iteration of `main` prints it like any other result and goes back to the loop test with
the retry counter at 0, whatever it was. -/
theorem divide_by_zero_not_an_error (c a z : Str)
    (hc : isRecasingOf c DIVIDE = true)
    (ha : validateAndReturnParsedInput a 1 ≠ [])
    (hz : validateAndReturnParsedInput z 2 ≠ [])
    (hz0 : stod z = .ok (.finite 0)) :
    parseUserInput (commandLine c a z) = some ⟨commandMap c a z, []⟩ ∧
    (∀ v : ℚ, divideNumbers (.finite v) (.finite 0)
      = if v = 0 then .nan else .infinity (decide (v < 0))) ∧
    (∀ x : Double, stod a = .ok x →
      (isAFloatingPointNumber a || isAFloatingPointNumber z) = true →
      ∃ s : Str, (s = "inf".toList ∨ s = "nan".toList) ∧
        getResult (commandMap c a z) = .ok s ∧
        ∀ r : Nat, mainIteration r (commandLine c a z)
          = some (.next 0 (endl ++ resultBanner ++ endl ++ "The result of the \"".toList
              ++ c ++ "\" operation is: ".toList ++ s ++ endl ++ resultBanner ++ endl
              ++ endl))) := by
  obtain ⟨hu, hcv, hcne, hcsp⟩ :=
    isRecasingOf_keyword c DIVIDE (by simp [VALID_COMMANDS]) hc
  have hparse := parseUserInput_validated_line c a z hcv hcsp ha hz
  have n1 : DIVIDE ≠ ADD := by decide
  have n2 : DIVIDE ≠ SUBTRACT := by decide
  have n3 : DIVIDE ≠ MULTIPLY := by decide
  have n4 : DIVIDE ≠ QUIT := by decide
  have hdiv : ∀ v : ℚ, divideNumbers (.finite v) (.finite 0)
      = if v = 0 then .nan else .infinity (decide (v < 0)) := by
    intro v; simp [divideNumbers]
  refine ⟨hparse, hdiv, ?_⟩
  intro x hx hdot
  obtain ⟨v, rfl, hv⟩ := stod_finite_nonneg a _ hx
  have hop : performOperation c (.finite v) (.finite 0)
      = if v = 0 then .nan else .infinity (decide (v < 0)) := by
    simp only [performOperation, hu, n1, n2, n3, if_false, hdiv]
  have hres : ∃ s : Str, (s = "inf".toList ∨ s = "nan".toList) ∧
      getResult (commandMap c a z) = .ok s := by
    rw [getResult_commandMap, hx, hz0]
    simp only [hdot, if_true, hop]
    by_cases h : v = 0
    · exact ⟨"nan".toList, Or.inr rfl, by simp [h, to_string_double]⟩
    · have hneg : ¬ v < 0 := not_lt.mpr hv
      exact ⟨"inf".toList, Or.inl rfl, by simp [h, hneg, to_string_double]⟩
  obtain ⟨s, hs, hget⟩ := hres
  refine ⟨s, hs, hget, ?_⟩
  intro r
  have hm : commandMap c a z ≠ [] := by simp [commandMap]
  have h0 : valueAt (commandMap c a z) "0".toList = c := (valueAt_cons_zero c _).1
  rw [mainIteration_of_nonempty r _ [] _ hparse hm, h0, hu, if_neg n4, hget]
  rfl

theorem divide_by_zero_not_an_error_witness :
    isRecasingOf "divide".toList DIVIDE = true ∧
    validateAndReturnParsedInput "7.5".toList 1 ≠ [] ∧
    ["0", "0.0", "00", "0.", ".0", "0.00"].all (fun z => isZeroLiteral z.toList) = true ∧
    validateAndReturnParsedInput "00".toList 2 ≠ [] ∧
    stod "00".toList = .ok (.finite 0) ∧
    stod "7.5".toList = .ok (.finite (15 / 2)) ∧
    (isAFloatingPointNumber "7.5".toList || isAFloatingPointNumber "00".toList) = true ∧
    parseUserInput (commandLine "divide".toList "7.5".toList "00".toList)
      = some ⟨commandMap "divide".toList "7.5".toList "00".toList, []⟩ ∧
    getResult (commandMap "divide".toList "7.5".toList "00".toList) = .ok "inf".toList ∧
    mainIteration 2 (commandLine "divide".toList "7.5".toList "00".toList)
      = some (.next 0 (endl ++ resultBanner ++ endl ++ "The result of the \"".toList
          ++ "divide".toList ++ "\" operation is: ".toList ++ "inf".toList ++ endl
          ++ resultBanner ++ endl ++ endl)) :=
  ⟨by decide, by decide, by decide, by decide, by decide!, by decide!, by decide,
    (divide_by_zero_not_an_error "divide".toList "7.5".toList "00".toList (by decide)
      (by decide) (stod_zero_literal "00".toList (by decide)).1
      (stod_zero_literal "00".toList (by decide)).2).1,
    by decide!, by decide!⟩

/-- Claim C18 as stated fails: for `divide 1 0` (no `'.'` in the operands) the line is
parsed, but what `getResult` returns is not the rendering of the infinite quotient: the
integer branch converts it with `(int)`, which has no defined value for an infinity.
And for the validator-accepted first operand `.` the line `divide . 0` is parsed but
`stod` throws `invalid_argument`. -/
theorem divide_by_zero_not_an_error_counterexample :
    validateAndReturnParsedInput "1".toList 1 ≠ [] ∧
    stod "0".toList = .ok (.finite 0) ∧
    parseUserInput (commandLine "divide".toList "1".toList "0".toList)
      = some ⟨commandMap "divide".toList "1".toList "0".toList, []⟩ ∧
    performOperation "divide".toList (.finite 1) (.finite 0) = .infinity false ∧
    getResult (commandMap "divide".toList "1".toList "0".toList)
      ≠ .ok (to_string_double (.infinity false)) ∧
    validateAndReturnParsedInput ".".toList 1 ≠ [] ∧
    parseUserInput (commandLine "divide".toList ".".toList "0".toList)
      = some ⟨commandMap "divide".toList ".".toList "0".toList, []⟩ ∧
    getResult (commandMap "divide".toList ".".toList "0".toList)
      = .error .invalid_argument := by
  refine ⟨by decide, by decide!, by rfl, by decide!, by decide!, by decide, by rfl,
    by decide!⟩

/-- Claim C19: The default-to-divide fallback of `performOperation` is safe under the
validator.  For every keyword `c` accepted by `isAValidCommand` whose upper-case form
is not `QUIT`, and all operands, `performOperation` performs the operation that `c`
names; the final, unconditional divide branch (taken when the upper-case form is none
of `ADD`, `SUBTRACT`, `MULTIPLY`) is reached only when `c` upper-cases to `DIVIDE`. -/
theorem performOperation_dispatch (c : Str) (x y : Double)
    (hv : isAValidCommand c = true) (hq : stringToUpperCase c ≠ QUIT) :
    ((stringToUpperCase c = ADD ∧ performOperation c x y = addNumbers x y) ∨
      (stringToUpperCase c = SUBTRACT ∧ performOperation c x y = subtractNumbers x y) ∨
      (stringToUpperCase c = MULTIPLY ∧ performOperation c x y = multiplyNumbers x y) ∨
      (stringToUpperCase c = DIVIDE ∧ performOperation c x y = divideNumbers x y)) ∧
    (stringToUpperCase c ≠ ADD → stringToUpperCase c ≠ SUBTRACT →
      stringToUpperCase c ≠ MULTIPLY → stringToUpperCase c = DIVIDE) := by
  have n1 : SUBTRACT ≠ ADD := by decide
  have n2 : MULTIPLY ≠ ADD := by decide
  have n3 : MULTIPLY ≠ SUBTRACT := by decide
  have n4 : DIVIDE ≠ ADD := by decide
  have n5 : DIVIDE ≠ SUBTRACT := by decide
  have n6 : DIVIDE ≠ MULTIPLY := by decide
  rcases (isAValidCommand_iff c).1 hv with h | h | h | h | h
  · exact ⟨Or.inl ⟨h, by simp [performOperation, h]⟩, fun hne => absurd h hne⟩
  · exact ⟨Or.inr (Or.inl ⟨h, by simp [performOperation, h, n1]⟩),
      fun _ hne => absurd h hne⟩
  · exact ⟨Or.inr (Or.inr (Or.inl ⟨h, by simp [performOperation, h, n2, n3]⟩)),
      fun _ _ hne => absurd h hne⟩
  · exact ⟨Or.inr (Or.inr (Or.inr ⟨h, by simp [performOperation, h, n4, n5, n6]⟩)),
      fun _ _ _ => h⟩
  · exact absurd h hq

theorem performOperation_dispatch_witness :
    isAValidCommand "Divide".toList = true ∧ stringToUpperCase "Divide".toList ≠ QUIT ∧
    performOperation "Divide".toList (.finite 10) (.finite 4)
      = divideNumbers (.finite 10) (.finite 4) :=
  ⟨by decide, by decide,
    ((performOperation_dispatch "Divide".toList (.finite 10) (.finite 4) (by decide)
      (by decide)).1.resolve_left (fun h => absurd h.1 (by decide))
      |>.resolve_left (fun h => absurd h.1 (by decide))
      |>.resolve_left (fun h => absurd h.1 (by decide))).2⟩

/-- Claim C20: The `while (true)` loop of `parseUserInput` terminates for every line.
Five iterations always suffice, the result is the one `parseUserInput` returns, it holds
at most four entries, and its keys are the consecutive positions starting at 0. -/
theorem parseUserInput_terminates (input : Str) :
    ∃ r, parseLoop 5 (istringstream input) 0 [] [] = some r ∧
      parseUserInput input = some r ∧ r.parsed.length ≤ 4 ∧
      r.parsed.map Prod.fst
        = (List.range r.parsed.length).map (fun j : Nat => to_string_int j) := by
  obtain ⟨n, hn, hkeys⟩ := parseTokens_keys (tokens input) 0 [] [] (by omega) (by rfl)
  have hlen : (parseTokens (tokens input) 0 [] []).parsed.length = n := by
    have := congrArg List.length hkeys
    simpa using this
  refine ⟨parseTokens (tokens input) 0 [] [],
    parseLoop_eq_parseTokens_of_count 5 input 0 [] [] (by omega),
    parseUserInput_eq_parseTokens input, by omega, ?_⟩
  rw [hlen]; exact hkeys

end CommandParser
